import Mathlib

/-!
# Verification of the gsim permutation engine

A shallow embedding, in Lean 4, of the gsim library (package `gsim`): a
dependency-graph-driven exhaustive permutation enumerator.  Graph nodes are
identified by natural numbers (standing for the Go pointers `*GraphNode`,
whose identity is reference identity).  The development contains:

* the state-change and callback algebra (`GraphNodeStateChange`,
  `allCallback`, ...);
* the dependency graph and `AddEdgeTo`;
* a branch-level (pure, copy-on-write-collapsed) model of the
  `graphPermutation` option generator, where one generator value describes
  the state visible to one branch;
* a heap model of `graphPermutation` in which generators and node-state
  objects live in an explicit store, parent chains are real pointers, and
  the copy-on-write discipline of `getNodeState` / `graphNodeState.Clone`
  is reproduced mutation by mutation;
* the generic depth-first enumerator `Permutations.ForEach` (explicit
  worklist, mixed-radix ordinals) and the random-access decoder
  `Permutations.Permutation`;
* theorems about all of the above.

Go slices are modelled as Lean lists, Go maps as association lists with
last-write-wins update, `*big.Int` ordinals as `Nat` (they are never
negative), and the `nil` interface value fed to the first `Generate` call
as `Option.none`.
-/

namespace Gsim

/-! ## State changes and callbacks (graph.go)

The Go source uses three sentinel pointer instances `NoChange`,
`MakeAvailable`, `Inhibit` compared by identity; we model the closed sum
directly. -/

inductive GraphNodeStateChange : Type where
  | NoChange : GraphNodeStateChange
  | MakeAvailable : GraphNodeStateChange
  | Inhibit : GraphNodeStateChange
deriving DecidableEq, Repr

export GraphNodeStateChange (NoChange MakeAvailable Inhibit)

/-- Callbacks take the node and the list of visited incoming nodes.  In Go
this is the interface method `IncomingEdgesReached(*GraphNode, []*GraphNode)`. -/
abbrev GraphNodeCallback : Type := Nat → List Nat → GraphNodeStateChange

/-- The `availableAnyCallback` always answers `MakeAvailable`. -/
def availableAnyCallback : GraphNodeCallback := fun _ _ => MakeAvailable

/-- The `inhibitAnyCallback` always answers `Inhibit`. -/
def inhibitAnyCallback : GraphNodeCallback := fun _ _ => Inhibit

/-- The common state of `AvailableAllCallback` and `InhibitAllCallback`:
a fixed answer and the list of required incoming nodes. -/
structure allCallback where
  result : GraphNodeStateChange
  required : List Nat
deriving DecidableEq, Repr

def newAllCallback (result : GraphNodeStateChange) (required : List Nat) :
    allCallback :=
  { result := result, required := required }

/-- The body of `allCallback.IncomingEdgesReached`: if the reached list is at
least as long as the required list and every required node is found among the
reached ones, answer `ac.result`, otherwise `NoChange`.  The inner Go loop
searching `reached` for `reqNode` is the decidable membership test. -/
def allCallback.IncomingEdgesReached (ac : allCallback) (_node : Nat)
    (reached : List Nat) : GraphNodeStateChange :=
  if ac.required.length ≤ reached.length then
    if ∀ reqNode ∈ ac.required, reqNode ∈ reached then ac.result else NoChange
  else NoChange

def NewAvailableAllCallback (required : List Nat) : allCallback :=
  newAllCallback MakeAvailable required

def NewInhibitAllCallback (required : List Nat) : allCallback :=
  newAllCallback Inhibit required

/-- The `InhibitThenAvailableCombiner` folds a list of sub-results:
`Inhibit` wins outright, otherwise any `MakeAvailable` wins, otherwise
`NoChange`.  The Go loop with early return is expressed recursively. -/
def InhibitThenAvailableCombiner : List GraphNodeStateChange → GraphNodeStateChange
  | [] => NoChange
  | Inhibit :: _ => Inhibit
  | MakeAvailable :: rest =>
      match InhibitThenAvailableCombiner rest with
      | Inhibit => Inhibit
      | _ => MakeAvailable
  | NoChange :: rest => InhibitThenAvailableCombiner rest

/-! ## The dependency graph (graph.go)

A `Graph` records, for every node identifier, its outgoing edge list, its
incoming edge list and its callback.  `NewGraphNode` corresponds to a node
identifier on which `Out`/`In` are `[]` and the callback is
`availableAnyCallback`; the engine itself never creates nodes. -/

structure Graph where
  Out : Nat → List Nat
  In : Nat → List Nat
  Callback : Nat → GraphNodeCallback

/-- A graph of isolated fresh nodes: every node as built by `NewGraphNode`. -/
def newGraph : Graph :=
  { Out := fun _ => [], In := fun _ => [], Callback := fun _ => availableAnyCallback }

/-- Install a callback on one node (`gn.Callback = cb` in Go). -/
def Graph.setCallback (g : Graph) (gn : Nat) (cb : GraphNodeCallback) : Graph :=
  { g with Callback := fun x => if x = gn then cb else g.Callback x }

/-- The helper `containsGraphNode`: linear search by (pointer) equality. -/
def containsGraphNode (gns : List Nat) (gn : Nat) : Bool :=
  gns.any (fun elem => elem == gn)

/-- The method `GraphNode.AddEdgeTo`: append `gn2` to `gn.Out` unless already
present, and append `gn` to `gn2.In` unless already present. -/
def Graph.AddEdgeTo (g : Graph) (gn gn2 : Nat) : Graph :=
  let g1 : Graph :=
    if containsGraphNode (g.Out gn) gn2 then g
    else { g with Out := fun x => if x = gn then g.Out gn ++ [gn2] else g.Out x }
  if containsGraphNode (g1.In gn2) gn then g1
  else { g1 with In := fun x => if x = gn2 then g1.In gn2 ++ [gn] else g1.In x }

/-! ## Association-list maps

Go maps are used by the engine only through key lookup and key assignment
(no iteration), so an association list with last-write-wins assignment is a
faithful model. -/

/-- Go map assignment `m[k] = v`. -/
def mapSet {α : Type} (m : List (Nat × α)) (k : Nat) (v : α) : List (Nat × α) :=
  (k, v) :: m.filter (fun p => p.1 != k)

/-! ## The branch-level (pure) model of `graphPermutation`

The Go `graphPermutation` shares node state across branches through a
parent chain with copy-on-write (`Clone` / `getNodeState`); the heap model
below reproduces that machinery.  Here we model the state *visible to one
branch*: the frontier `current` and the merged node-state map.  `Clone` is
value copy and therefore disappears.  `Generate` returns `none` exactly
where the Go code dereferences a nil `*graphNodeState` (a panic). -/

structure graphNodeState where
  inhibited : Bool
  available : Bool
  incomingVisited : List Nat
deriving DecidableEq, Repr

/-! ## Invariants of the branch-level generator -/

namespace Branch

structure graphPermutation where
  current : List Nat
  nodeState : List (Nat × graphNodeState)
deriving DecidableEq, Repr

/-- The constructor `NewGraphPermutation`: every starting node gets a fresh
state (`available`, not `inhibited`, nothing visited), and the frontier is
the starting nodes in order. -/
def NewGraphPermutation (startingNode : List Nat) : graphPermutation :=
  { current := startingNode,
    nodeState := startingNode.foldl
      (fun m gn => mapSet m gn { inhibited := false, available := true, incomingVisited := [] }) [] }

/-- The tail of `Generate`'s successor loop once a successor `gn` is dirty
with updated state `ns`: record `ns`, consult the node's callback on the
visited incoming list, and apply the resulting state change. -/
def dirtyStep (g : Graph) (gp : graphPermutation) (gn : Nat) (ns : graphNodeState) :
    graphPermutation :=
  let gp1 : graphPermutation := { gp with nodeState := mapSet gp.nodeState gn ns }
  match g.Callback gn gn ns.incomingVisited with
  | Inhibit =>
    if ns.available then
      { current := gp1.current.erase gn,
        nodeState := mapSet gp1.nodeState gn
          { ns with available := false, inhibited := true } }
    else
      { gp1 with nodeState := mapSet gp1.nodeState gn { ns with inhibited := true } }
  | MakeAvailable =>
    if ns.available then gp1
    else
      { current := gp1.current ++ [gn],
        nodeState := mapSet gp1.nodeState gn { ns with available := true } }
  | NoChange => gp1

/-- One iteration of `Generate`'s loop over `lastChosen.Out`: skip inhibited
successors and successors already credited with this edge, otherwise append
`lastChosen` to the successor's visited incoming list (creating a fresh
state if none exists) and run the callback. -/
def generateStep (g : Graph) (lastChosen : Nat) (gp : graphPermutation) (gn : Nat) :
    graphPermutation :=
  match gp.nodeState.lookup gn with
  | some ns =>
    if ns.inhibited then gp
    else if lastChosen ∈ ns.incomingVisited then gp
    else dirtyStep g gp gn { ns with incomingVisited := ns.incomingVisited ++ [lastChosen] }
  | none =>
    dirtyStep g gp gn { inhibited := false, available := false, incomingVisited := [lastChosen] }

/-- The method `graphPermutation.Generate`.  With no previous choice the
current frontier is returned unchanged.  Otherwise the chosen node's state
is marked `inhibited` (its `available` flag is *not* touched), the node is
removed from the frontier, and every outgoing edge is propagated.  If the
chosen node has no recorded state the Go code writes through a nil pointer;
that panic is `none` here. -/
def Generate (g : Graph) (gp : graphPermutation) (lastChosen : Option Nat) :
    Option (graphPermutation × List Nat) :=
  match lastChosen with
  | none => some (gp, gp.current)
  | some v =>
    match gp.nodeState.lookup v with
    | none => none
    | some lcs =>
      let gp1 : graphPermutation :=
        { current := gp.current.erase v,
          nodeState := mapSet gp.nodeState v { lcs with inhibited := true } }
      let gp2 := (g.Out v).foldl (generateStep g v) gp1
      some (gp2, gp2.current)

end Branch

/-! ## The simple permutation generator (permutation.go)

`simplePermutation` keeps the not-yet-chosen elements and removes the last
chosen one on each call; its `Clone` copies the slice, so value copy models
it exactly.  Elements are assumed non-nil, so the very first call (last
chosen = `none`) removes nothing. -/

def simplePermutationGenerate (sp : List Nat) (lastChosen : Option Nat) :
    Option (List Nat × List Nat) :=
  match lastChosen with
  | none => some (sp, sp)
  | some v => some (sp.erase v, sp.erase v)

/-! ## The permutation enumerator (gsim.go)

`Permutations.ForEach` walks an explicit worklist of frames.  The Go slice
used as a stack (append at the end, pop from the end) is a Lean list with
its head as the stack top, so the children generated in forward order are
pushed reversed.  Ordinals (`*big.Int`, never negative here) are `Nat`.
The generic option generator is any function `S → Option V → Option (S × List V)`
on a state type `S` with value copy for `Clone`; the `Option` result
propagates a generator panic.  The prefix buffer `perm` is reused across
frames exactly as in Go: on popping a frame of depth `d` it is truncated to
`d` entries and the frame's value appended; index `0` holds the root
sentinel (`none`). -/

structure Frame (S V : Type) where
  n : Nat
  depth : Nat
  value : Option V
  generator : S
  cumuOpts : Nat

abbrev OptionGeneratorFn (S V : Type) : Type := S → Option V → Option (S × List V)

/-- The worklist loop of `Permutations.ForEach`, with explicit fuel; `none`
means the fuel ran out (or a generator panicked) before the worklist
emptied.  Consumed `(n, perm)` pairs are accumulated in emission order. -/
def ForEachRun (gen : OptionGeneratorFn S V) :
    Nat → List (Frame S V) → List (Option V) → List (Nat × List (Option V)) →
    Option (List (Nat × List (Option V)))
  | _, [], _, acc => some acc
  | 0, _ :: _, _, _ => none
  | fuel + 1, cur :: rest, perm, acc =>
    let perm1 := perm.take cur.depth ++ [cur.value]
    match gen cur.generator cur.value with
    | none => none
    | some (g1, options) =>
      if options.length = 0 then
        ForEachRun gen fuel rest perm1 (acc ++ [(cur.n, perm1.drop 1)])
      else
        let cumuOpts := cur.cumuOpts * options.length
        let children := options.enum.map (fun io : Nat × V =>
          { n := if options.length = 1 then cur.n else cur.n + io.1 * cur.cumuOpts,
            depth := cur.depth + 1, value := some io.2, generator := g1,
            cumuOpts := cumuOpts : Frame S V })
        ForEachRun gen fuel (children.reverse ++ rest) perm1 acc

/-- The root frame built by `ForEach` (the generator is cloned there; clone
is value copy). -/
def rootFrame (s : S) : Frame S V :=
  { n := 0, depth := 0, value := none, generator := s, cumuOpts := 1 }

/-- The method `Permutations.ForEach` on a `Permutations` whose root
generator is `s`. -/
def ForEach (gen : OptionGeneratorFn S V) (s : S) (fuel : Nat) :
    Option (List (Nat × List (Option V))) :=
  ForEachRun gen fuel [rootFrame s] [] []

/-- The loop of `Permutations.Permutation`: mixed-radix decoding.  At each
step with a nonempty option list of length `k`, the digit is `n % k`, the
rest is `n / k` (Go's `QuoRem`), and the chosen option is appended. -/
def PermutationRun (gen : OptionGeneratorFn S V) :
    Nat → S → Option V → Nat → Option (List V)
  | 0, _, _, _ => none
  | fuel + 1, s, val, n =>
    match gen s val with
    | none => none
    | some (s1, options) =>
      match options with
      | [] => some []
      | o :: rest =>
        let choice := n % (o :: rest).length
        let v := (o :: rest).get ⟨choice, Nat.mod_lt _ (Nat.succ_pos rest.length)⟩
        (PermutationRun gen fuel s1 (some v) (n / (o :: rest).length)).map
          (fun p => v :: p)

/-- The method `Permutations.Permutation` on a `Permutations` whose root
generator is `s` (the root `value` is the nil sentinel). -/
def Permutation (gen : OptionGeneratorFn S V) (s : S) (fuel n : Nat) :
    Option (List V) :=
  PermutationRun gen fuel s none n

/-- The subtree-leaf relation: `Leaf gen s val n cumu nf p` holds when the
depth-first exploration started from generator state `s` after choice `val`,
with partial ordinal `n` and cumulative option count `cumu`, reaches a leaf
whose final ordinal is `nf` along the further choices `p`.  The ordinal
arithmetic mirrors `ForEach`: child `i` of a frame with `k` options gets
ordinal `n + i * cumu` (`n` itself when `k = 1`) and cumulative count
`cumu * k`. -/
inductive Leaf (gen : OptionGeneratorFn S V) :
    S → Option V → Nat → Nat → Nat → List V → Prop
  | done {s : S} {val : Option V} {s1 : S} {n cumu : Nat} :
      gen s val = some (s1, []) → Leaf gen s val n cumu n []
  | step {s : S} {val : Option V} {s1 : S} {options : List V} {n cumu nf : Nat}
      {p : List V} (i : Nat) (h : i < options.length) :
      gen s val = some (s1, options) →
      Leaf gen s1 (some (options.get ⟨i, h⟩))
        (if options.length = 1 then n else n + i * cumu) (cumu * options.length) nf p →
      Leaf gen s val n cumu nf (options.get ⟨i, h⟩ :: p)

/-! ### Uniqueness of emitted ordinals

Every frame of the worklist owns the arithmetic progression (cone)
`{ n + cumuOpts * q }` of ordinals; emission takes the cone's base, and the
cones of the children partition into disjoint residue classes inside the
parent's cone.  From this, the ordinals emitted by a completed run are
pairwise distinct. -/

def InCone (fr : Frame S V) (m : Nat) : Prop :=
  ∃ q, m = fr.n + fr.cumuOpts * q

namespace Branch

/-- The final node state written by `dirtyStep` for the dirty successor:
`Inhibit` clears `available` and sets `inhibited`, `MakeAvailable` sets
`available`, `NoChange` stores the dirty state unchanged. -/
def dirtyResult (g : Graph) (gn : Nat) (ns : graphNodeState) : graphNodeState :=
  match g.Callback gn gn ns.incomingVisited with
  | Inhibit => { ns with available := false, inhibited := true }
  | MakeAvailable => { ns with available := true }
  | NoChange => ns

/-- The invariant tying a branch's frontier to its node states: the frontier
has no duplicates, a recorded state is `available ∧ ¬inhibited` exactly when
its node is on the frontier, and every frontier node has a recorded state. -/
structure InvGP (gp : graphPermutation) : Prop where
  nodup : gp.current.Nodup
  mem_iff : ∀ x s, gp.nodeState.lookup x = some s →
    ((s.available = true ∧ s.inhibited = false) ↔ x ∈ gp.current)
  mem_state : ∀ x ∈ gp.current, (gp.nodeState.lookup x).isSome

/-- A node is inhibited in a branch state when its recorded state says so. -/
def inhibitedIn (gp : graphPermutation) (x : Nat) : Prop :=
  ∃ s, gp.nodeState.lookup x = some s ∧ s.inhibited = true

/-- Apply `Generate` for each entry of a trace of last-chosen values,
propagating the panic (`none`). -/
def applyTrace (g : Graph) : graphPermutation → List (Option Nat) → Option graphPermutation
  | gp, [] => some gp
  | gp, v :: tr =>
    match Generate g gp v with
    | some (gp', _) => applyTrace g gp' tr
    | none => none

/-- Run a trace of `Generate` calls while logging every frontier returned so
far, refusing (`none`) any chosen value that is neither the nil sentinel nor
a member of some previously returned frontier.  This captures the calling
discipline of the enumerator. -/
def runDisc (g : Graph) :
    graphPermutation → List Nat → List (Option Nat) → Option (graphPermutation × List Nat)
  | gp, fr, [] => some (gp, fr)
  | gp, fr, none :: tr =>
    match Generate g gp none with
    | some (gp', out) => runDisc g gp' (fr ++ out) tr
    | none => none
  | gp, fr, some x :: tr =>
    if x ∈ fr then
      match Generate g gp (some x) with
      | some (gp', out) => runDisc g gp' (fr ++ out) tr
      | none => none
    else none

/-- The weak frontier invariant: every frontier node has a recorded state.
Unlike `InvGP` it holds even with duplicated starting nodes. -/
def WInv (gp : graphPermutation) : Prop :=
  ∀ x ∈ gp.current, (gp.nodeState.lookup x).isSome

end Branch

/-! ## Determinism as invariance under node renaming

Two runs over identically-constructed graphs differ only in which pointer
each `NewGraphNode` call returned; a bijective renaming `π` of node
identifiers relates them.  The enumeration commutes with any such renaming:
ordinals are unchanged and permutations are renamed pointwise, which is
precisely "identical ordinal-to-permutation maps" for identically
constructed graphs.  No operation of the engine inspects a node identifier
other than by equality, and no map iteration order leaks into the result. -/

def mapPair {V V' : Type} (σV : V → V') (x : Nat × List (Option V)) :
    Nat × List (Option V') :=
  (x.1, x.2.map (Option.map σV))

def mapFrame {S S' V V' : Type} (σS : S → S') (σV : V → V') (fr : Frame S V) :
    Frame S' V' :=
  { n := fr.n, depth := fr.depth, value := fr.value.map σV,
    generator := σS fr.generator, cumuOpts := fr.cumuOpts }

/-- Rename the node identifiers of a graph along a bijection `π`.  This is
the graph that an identical construction sequence builds when
`NewGraphNode` hands out pointer `π x` instead of `x`. -/
def mapGraph (π : Nat ≃ Nat) (g : Graph) : Graph :=
  { Out := fun nd => (g.Out (π.symm nd)).map π,
    In := fun nd => (g.In (π.symm nd)).map π,
    Callback := fun nd node iv => g.Callback (π.symm nd) (π.symm node) (iv.map π.symm) }

namespace Branch

def mapNState (π : Nat ≃ Nat) (s : graphNodeState) : graphNodeState :=
  { s with incomingVisited := s.incomingVisited.map π }

def mapEntry (π : Nat ≃ Nat) (p : Nat × graphNodeState) : Nat × graphNodeState :=
  (π p.1, mapNState π p.2)

def mapGP (π : Nat ≃ Nat) (gp : graphPermutation) : graphPermutation :=
  { current := gp.current.map π, nodeState := gp.nodeState.map (mapEntry π) }

end Branch

/-! ## The heap model of `graphPermutation`

Here generators and node-state objects live in an explicit store, exactly
as in the Go source: a generator record holds a parent pointer, the
frontier `current`, and a map from nodes to node-state *object
identifiers*; a node-state object carries the owning generator
(`permutation`) used by `graphNodeState.Clone` for its copy-on-write test.
Fresh identifiers are handed out by counters, standing for allocation.
`getNodeState` reproduces the chain walk with its read caching
(`gp.nodeState[node] = gns`) and its clone-to-local mode, and `Generate`
reproduces every mutation in order.  Slices remain Lean lists: an `append`
to `incomingVisited` in Go either writes a freshly-allocated array
(`Clone` copies with capacity equal to length) or an array no other live
slice header can observe, so list values are a sound model. -/

namespace Heap

structure graphNodeState where
  node : Nat
  permutation : Nat
  inhibited : Bool
  available : Bool
  incomingVisited : List Nat
deriving DecidableEq, Repr

structure GenRec where
  parent : Option Nat
  current : List Nat
  nodeState : List (Nat × Nat)
deriving DecidableEq, Repr

structure World where
  gens : List (Nat × GenRec)
  states : List (Nat × graphNodeState)
  nextGen : Nat
  nextState : Nat
deriving DecidableEq, Repr

def lookupGen (w : World) (g : Nat) : Option GenRec :=
  w.gens.lookup g

def lookupState (w : World) (sid : Nat) : Option graphNodeState :=
  w.states.lookup sid

def setGen (w : World) (g : Nat) (r : GenRec) : World :=
  { w with gens := mapSet w.gens g r }

def setState (w : World) (sid : Nat) (s : graphNodeState) : World :=
  { w with states := mapSet w.states sid s }

/-- Install `gp.nodeState[node] = sid` on generator `g`. -/
def setLocal (w : World) (g : Nat) (nd sid : Nat) : World :=
  match lookupGen w g with
  | some r => setGen w g { r with nodeState := mapSet r.nodeState nd sid }
  | none => w

/-- Allocate a state object. -/
def allocState (w : World) (s : graphNodeState) : World × Nat :=
  ({ w with states := mapSet w.states w.nextState s, nextState := w.nextState + 1 },
    w.nextState)

/-- The method `graphNodeState.Clone(gp)`: if the object is already owned by
`gp` return it unchanged, otherwise allocate a copy owned by `gp` (the
`incomingVisited` list is a value, so the deep copy is the value itself)
and install it in `gp`'s local map. -/
def gnsClone (w : World) (sid : Nat) (gns : graphNodeState) (gp : Nat) : World × Nat :=
  if gns.permutation = gp then (w, sid)
  else
    let r := allocState w { gns with permutation := gp }
    (setLocal r.1 gp gns.node r.2, r.2)

/-- The method `graphPermutation.getNodeState`: look in the local map first
(cloning the found object to the receiver), otherwise walk the parent
chain with `cloneToLocal = false`; a hit found in an ancestor is either
cloned to the local map (`cloneToLocal`) or installed as a shared read
cache.  The `p < g` guard mirrors that a generator's parent was always
allocated before it; on well-formed worlds it never fails. -/
def getNodeStateA (w : World) : Nat → Nat → Nat → Bool → World × Option Nat
  | 0, _, _, _ => (w, none)
  | fuel+1, g, nd, cloneToLocal =>
    match lookupGen w g with
    | none => (w, none)
    | some gr =>
      match gr.nodeState.lookup nd with
      | some sid =>
        match lookupState w sid with
        | some gns =>
          let r := gnsClone w sid gns g
          (r.1, some r.2)
        | none => (w, none)
      | none =>
        match gr.parent with
        | none => (w, none)
        | some p =>
          if p < g then
            match getNodeStateA w fuel p nd false with
            | (w1, some sid) =>
              if cloneToLocal then
                match lookupState w1 sid with
                | some gns =>
                  let r := gnsClone w1 sid gns g
                  (r.1, some r.2)
                | none => (w1, none)
              else (setLocal w1 g nd sid, some sid)
            | (w1, none) => (w1, none)
          else (w, none)

def getNodeState (w : World) (g : Nat) (nd : Nat) (cloneToLocal : Bool) :
    World × Option Nat :=
  getNodeStateA w (g+1) g nd cloneToLocal

/-- The tail of the successor loop once the dirty state `ns` has been
stored at object `sid`: run the callback of the successor node and apply
the state change to the object and to `g`'s frontier. -/
def applyCallbackH (G : Graph) (g : Nat) (sid : Nat) (ns : graphNodeState)
    (w : World) : World :=
  match G.Callback ns.node ns.node ns.incomingVisited with
  | Inhibit =>
    if ns.available then
      let wa := setState w sid { ns with available := false, inhibited := true }
      match lookupGen wa g with
      | some gr => setGen wa g { gr with current := gr.current.erase ns.node }
      | none => wa
    else setState w sid { ns with inhibited := true }
  | MakeAvailable =>
    if ns.available then w
    else
      let wa := setState w sid { ns with available := true }
      match lookupGen wa g with
      | some gr => setGen wa g { gr with current := gr.current ++ [ns.node] }
      | none => wa
  | NoChange => w

/-- One iteration of `Generate`'s loop over the chosen node's outgoing
edges. -/
def succStep (G : Graph) (g : Nat) (lcNode : Nat) (w : World) (gn : Nat) : World :=
  match getNodeState w g gn false with
  | (w1, some sid2) =>
    match lookupState w1 sid2 with
    | none => w1
    | some ns =>
      if ns.inhibited then w1
      else if lcNode ∈ ns.incomingVisited then w1
      else
        match gnsClone w1 sid2 ns g with
        | (w2, sid3) =>
          let ns3 : graphNodeState :=
            { ns with
              permutation := g
              incomingVisited := ns.incomingVisited ++ [lcNode] }
          applyCallbackH G g sid3 ns3 (setState w2 sid3 ns3)
  | (w1, none) =>
    let r := allocState w1
      { node := gn, permutation := g, inhibited := false, available := false,
        incomingVisited := [lcNode] }
    applyCallbackH G g r.2
      { node := gn, permutation := g, inhibited := false, available := false,
        incomingVisited := [lcNode] }
      (setLocal r.1 g gn r.2)

/-- The method `graphPermutation.Generate` on the heap: `none` models the
nil-pointer write that Go performs when the chosen node has no recorded
state. -/
def Generate (G : Graph) (w : World) (g : Nat) (lastChosen : Option Nat) :
    Option (World × List Nat) :=
  match lastChosen with
  | none => (lookupGen w g).map (fun gr => (w, gr.current))
  | some v =>
    match getNodeState w g v true with
    | (_, none) => none
    | (w1, some sid) =>
      match lookupState w1 sid with
      | none => none
      | some lcs =>
        let w2 := setState w1 sid { lcs with inhibited := true }
        let w3 :=
          match lookupGen w2 g with
          | some gr => setGen w2 g { gr with current := gr.current.erase v }
          | none => w2
        let w4 := (G.Out lcs.node).foldl (succStep G g lcs.node) w3
        (lookupGen w4 g).map (fun gr => (w4, gr.current))

/-- The method `graphPermutation.Clone`: a fresh generator with a copied
frontier, an empty local state map and the receiver as parent. -/
def Clone (w : World) (g : Nat) : World × Nat :=
  match lookupGen w g with
  | none => (w, g)
  | some gr =>
    ({ w with
        gens := mapSet w.gens w.nextGen
          { parent := some g, current := gr.current, nodeState := [] },
        nextGen := w.nextGen + 1 }, w.nextGen)

/-- `NewGraphPermutation`: generator `0` with the starting nodes as
frontier and one fresh available state per starting node. -/
def NewGraphPermutation (sd : List Nat) : World :=
  sd.foldl
    (fun w gn =>
      let r := allocState w
        { node := gn, permutation := 0, inhibited := false, available := true,
          incomingVisited := [] }
      setLocal r.1 0 gn r.2)
    { gens := mapSet [] 0 { parent := none, current := sd, nodeState := [] },
      states := [], nextGen := 1, nextState := 0 }

/-- A sequence of `Generate` calls on one generator; a failing call stops
the run. -/
def GenerateSeq (G : Graph) (g : Nat) : List (Option Nat) → World → World
  | [], w => w
  | v :: vs, w =>
    match Generate G w g v with
    | some (w', _) => GenerateSeq G g vs w'
    | none => w

/-- The parent chain of a generator, youngest first, computed with fuel;
the `p < g` guard is never hit on well-formed worlds, and fuel `g+1`
always suffices because identifiers strictly decrease along the chain. -/
def chainListA (w : World) : Nat → Nat → List Nat
  | 0, g => [g]
  | fuel+1, g =>
    match lookupGen w g with
    | none => [g]
    | some gr =>
      match gr.parent with
      | none => [g]
      | some p => if p < g then g :: chainListA w fuel p else [g]

def chainList (w : World) (g : Nat) : List Nat := chainListA w (g+1) g

/-- The state-object identifier a chain lookup from `g` finds for `nd`. -/
def chainFindA (w : World) : Nat → Nat → Nat → Option Nat
  | 0, _, _ => none
  | fuel+1, g, nd =>
    match lookupGen w g with
    | none => none
    | some gr =>
      match gr.nodeState.lookup nd with
      | some sid => some sid
      | none =>
        match gr.parent with
        | none => none
        | some p => if p < g then chainFindA w fuel p nd else none

def chainFind (w : World) (g : Nat) (nd : Nat) : Option Nat :=
  chainFindA w (g+1) g nd

/-- The value fields of a node state, without the ownership tag: what a
lookup observes. -/
def stateView (s : graphNodeState) : Nat × Bool × Bool × List Nat :=
  (s.node, s.inhibited, s.available, s.incomingVisited)

/-- The node state visible to generator `g` at node `nd`. -/
def chainVal (w : World) (g : Nat) (nd : Nat) : Option (Nat × Bool × Bool × List Nat) :=
  (chainFind w g nd).bind (fun sid => (lookupState w sid).map stateView)

/-- The frontier of generator `g`. -/
def currentOf (w : World) (g : Nat) : Option (List Nat) :=
  (lookupGen w g).map (fun gr => gr.current)

/-- An entry of a generator's local state map is backed by a live state
object for the right node, owned by a generator on the local generator's
own chain. -/
def stateOK (w : World) (gid : Nat) (q : Nat × Nat) : Prop :=
  match w.states.lookup q.2 with
  | some s => s.node = q.1 ∧ s.permutation ∈ chainList w gid
  | none => False

instance (w : World) (gid : Nat) (q : Nat × Nat) : Decidable (stateOK w gid q) :=
  match h : w.states.lookup q.2 with
  | some s =>
    decidable_of_iff (s.node = q.1 ∧ s.permutation ∈ chainList w gid)
      (by simp [stateOK, h])
  | none => isFalse (by simp [stateOK, h])

/-- Well-formedness of a heap world: generator and state identifiers are
below their allocation counters, state owners are allocated generator
identifiers, parents precede their children, and every local-map entry is
`stateOK`. -/
def WF (w : World) : Prop :=
  (∀ p ∈ w.gens, p.1 < w.nextGen) ∧
  (∀ p ∈ w.states, p.1 < w.nextState) ∧
  (∀ p ∈ w.states, p.2.permutation < w.nextGen) ∧
  (∀ p ∈ w.gens, ∀ pr ∈ p.2.parent.toList, pr < p.1) ∧
  (∀ p ∈ w.gens, ∀ q ∈ p.2.nodeState, stateOK w p.1 q)

instance (w : World) : Decidable (WF w) := by
  unfold WF
  infer_instance

/-- Footprint of the read path `getNodeState` on generator `g`: generator
records off `g`'s chain are untouched, parents and every frontier are
untouched, existing state objects are untouched, and the state visible to
any generator at any node is unchanged (read caching and clone-to-local
are transparent). -/
structure ExtR (w w' : World) (g : Nat) : Prop where
  maps : ∀ a, a ∉ chainList w g → lookupGen w' a = lookupGen w a
  skel : ∀ a, (lookupGen w' a).map GenRec.parent = (lookupGen w a).map GenRec.parent
  cur : ∀ a, currentOf w' a = currentOf w a
  states : ∀ sid s, lookupState w sid = some s → lookupState w' sid = some s
  cval : ∀ a m, chainVal w' a m = chainVal w a m
  nsmono : w.nextState ≤ w'.nextState

/-- Footprint of one `Generate` call on generator `g`: generator records off
`g`'s chain are untouched, parents are untouched, the frontier of every
other generator is untouched, state objects not owned by `g` are untouched,
and the state visible to any generator that does not have `g` on its parent
chain is unchanged. -/
structure ExtM (w w' : World) (g : Nat) : Prop where
  maps : ∀ a, a ∉ chainList w g → lookupGen w' a = lookupGen w a
  skel : ∀ a, (lookupGen w' a).map GenRec.parent = (lookupGen w a).map GenRec.parent
  cur : ∀ a, a ≠ g → currentOf w' a = currentOf w a
  states : ∀ sid s, lookupState w sid = some s → s.permutation ≠ g →
    lookupState w' sid = some s
  cval : ∀ a, g ∉ chainList w a → ∀ m, chainVal w' a m = chainVal w a m
  nsmono : w.nextState ≤ w'.nextState

end Heap

/-! ## Concrete instances used by counterexamples and witnesses -/

/-- A three-node graph on which the enumeration's ordinal range has a gap:
nodes `0, 1, 2`; a single edge `0 → 1`; node `1` is inhibited as soon as any
incoming edge is reached. -/
def gapGraph : Graph :=
  (newGraph.AddEdgeTo 0 1).setCallback 1 inhibitAnyCallback

def gapStart : Branch.graphPermutation :=
  Branch.NewGraphPermutation [0, 1, 2]

/-- A two-node graph `0 → 1` with the default (no-change) callbacks, used on
the heap model. -/
def chainG : Graph := newGraph.AddEdgeTo 0 1

/-- The heap world of `NewGraphPermutation([n0])`. -/
def heapW0 : Heap.World := Heap.NewGraphPermutation [0]

/-- `heapW0` after `Clone` of generator `0`; the clone is generator `1`. -/
def heapWC : Heap.World × Nat := Heap.Clone heapW0 0

theorem containsGraphNode_eq_true_iff {gns : List Nat} {gn : Nat} :
    containsGraphNode gns gn = true ↔ gn ∈ gns := by
  simp only [containsGraphNode, List.any_eq_true, beq_iff_eq]
  constructor
  · rintro ⟨a, ha, rfl⟩
    exact ha
  · intro h
    exact ⟨gn, h, rfl⟩

theorem AddEdgeTo_Out_mem (g : Graph) (gn gn2 : Nat) :
    gn2 ∈ (g.AddEdgeTo gn gn2).Out gn := by
  unfold Graph.AddEdgeTo
  by_cases h1 : containsGraphNode (g.Out gn) gn2
  · by_cases h2 : containsGraphNode (g.In gn2) gn <;>
      simp [h1, h2, containsGraphNode_eq_true_iff.mp h1]
  · by_cases h2 : containsGraphNode (g.In gn2) gn <;> simp [h1, h2]

theorem AddEdgeTo_In_mem (g : Graph) (gn gn2 : Nat) :
    gn ∈ (g.AddEdgeTo gn gn2).In gn2 := by
  unfold Graph.AddEdgeTo
  by_cases h1 : containsGraphNode (g.Out gn) gn2
  · by_cases h2 : containsGraphNode (g.In gn2) gn
    · simp [h1, h2, containsGraphNode_eq_true_iff.mp h2]
    · simp [h1, h2]
  · by_cases h2 : containsGraphNode (g.In gn2) gn
    · simp [h1] at h2 ⊢
      simp [h2, containsGraphNode_eq_true_iff.mp h2]
    · simp [h1] at h2 ⊢
      simp [h2]

theorem AddEdgeTo_of_mem_mem (g : Graph) (gn gn2 : Nat)
    (h1 : gn2 ∈ g.Out gn) (h2 : gn ∈ g.In gn2) : g.AddEdgeTo gn gn2 = g := by
  unfold Graph.AddEdgeTo
  simp [containsGraphNode_eq_true_iff.mpr h1, containsGraphNode_eq_true_iff.mpr h2]

theorem lookup_filter_ne {α : Type} (m : List (Nat × α)) (k k' : Nat) (h : k' ≠ k) :
    (m.filter (fun p => p.1 != k)).lookup k' = m.lookup k' := by
  induction m with
  | nil => rfl
  | cons p rest ih =>
    by_cases hp : p.1 = k
    · have hne : (k' == p.1) = false := by simp [hp, h]
      have hne2 : (k' == k) = false := by simp [h]
      simp [List.filter, List.lookup, hp, hne, hne2, ih]
    · simp only [List.filter, List.lookup]
      have hne : (p.1 != k) = true := by simp [hp]
      simp only [hne]
      by_cases hk' : k' = p.1
      · simp [List.lookup, hk']
      · have : (k' == p.1) = false := by simp [hk']
        simp [List.lookup, this, ih]

@[simp] theorem lookup_mapSet_self {α : Type} (m : List (Nat × α)) (k : Nat) (v : α) :
    (mapSet m k v).lookup k = some v := by
  simp [mapSet, List.lookup]

theorem lookup_mapSet_ne {α : Type} (m : List (Nat × α)) (k k' : Nat) (v : α)
    (h : k' ≠ k) : (mapSet m k v).lookup k' = m.lookup k' := by
  have : (k' == k) = false := by simp [h]
  simp [mapSet, List.lookup, this, lookup_filter_ne m k k' h]

/-! ### The mixed-radix decode inverts the ordinal assignment -/

/-- Every leaf ordinal lies on the frame's residue class, and feeding the
offset to the decoding loop of `Permutation` reproduces the leaf's path. -/
theorem Leaf.decode {S V : Type} {gen : OptionGeneratorFn S V} {s : S} {val : Option V}
    {n cumu nf : Nat} {p : List V} (h : Leaf gen s val n cumu nf p) :
    1 ≤ cumu → ∃ m, nf = n + cumu * m ∧
      ∀ fuel, p.length < fuel → PermutationRun gen fuel s val m = some p := by
  induction h with
  | done hgen =>
    intro _
    refine ⟨0, by simp, ?_⟩
    intro fuel hf
    match fuel, hf with
    | fuel + 1, _ => simp [PermutationRun, hgen]
  | step i hi hgen hleaf ih =>
    rename_i s val s1 options n cumu nf p
    intro hc
    have hk : 0 < options.length := Nat.lt_of_le_of_lt (Nat.zero_le i) hi
    obtain ⟨m', hm', hdec⟩ := ih (Nat.mul_pos hc hk)
    refine ⟨i + options.length * m', ?_, ?_⟩
    · by_cases h1 : options.length = 1
      · have hi0 : i = 0 := Nat.lt_one_iff.mp (h1 ▸ hi)
        rw [if_pos h1] at hm'
        rw [hm', h1, hi0]
        ring
      · rw [if_neg h1] at hm'
        rw [hm']
        ring
    · intro fuel hf
      match fuel, hf with
      | fuel + 1, hf =>
        have hf' : p.length < fuel := by simpa using Nat.lt_of_succ_lt_succ hf
        match options, hi, hgen, hdec with
        | o :: rest, hi, hgen, hdec =>
          have hi' : i < rest.length + 1 := by simpa using hi
          have hmod : i % (rest.length + 1) = i := Nat.mod_eq_of_lt hi'
          have hdiv : (i + (rest.length + 1) * m') / (rest.length + 1) = m' := by
            rw [Nat.add_mul_div_left _ _ (Nat.succ_pos rest.length),
              Nat.div_eq_of_lt hi', Nat.zero_add]
          have hmod2 : (i + (rest.length + 1) * m') % (rest.length + 1) = i := by
            rw [Nat.add_mul_mod_self_left, hmod]
          simp only [PermutationRun, hgen, List.length_cons, hmod2, hdiv]
          rw [hdec fuel hf']
          rfl

theorem InCone_self (fr : Frame S V) : InCone fr fr.n :=
  ⟨0, by simp⟩

theorem ForEachRun_ordinals_nodup {S V : Type} (gen : OptionGeneratorFn S V) :
    ∀ (fuel : Nat) (wl : List (Frame S V)) (perm : List (Option V))
      (acc : List (Nat × List (Option V))) (res : List (Nat × List (Option V))),
      (∀ fr ∈ wl, 1 ≤ fr.cumuOpts) →
      wl.Pairwise (fun f f' => ∀ m, InCone f m → InCone f' m → False) →
      (∀ fr ∈ wl, ∀ x ∈ acc, ¬ InCone fr x.1) →
      (acc.map Prod.fst).Nodup →
      ForEachRun gen fuel wl perm acc = some res →
      (res.map Prod.fst).Nodup := by
  intro fuel
  induction fuel with
  | zero =>
    intro wl perm acc res h1 h2 h3 h4 hrun
    cases wl with
    | nil =>
      simp only [ForEachRun, Option.some_inj] at hrun
      exact hrun ▸ h4
    | cons cur rest => simp [ForEachRun] at hrun
  | succ fuel ih =>
    intro wl perm acc res h1 h2 h3 h4 hrun
    cases wl with
    | nil =>
      simp only [ForEachRun, Option.some_inj] at hrun
      exact hrun ▸ h4
    | cons cur rest =>
      simp only [ForEachRun] at hrun
      cases hgen : gen cur.generator cur.value with
      | none => rw [hgen] at hrun; simp at hrun
      | some pr =>
        obtain ⟨g1, options⟩ := pr
        rw [hgen] at hrun
        dsimp only at hrun
        by_cases hopt : options.length = 0
        · rw [if_pos hopt] at hrun
          refine ih rest _ _ res (fun fr hf => h1 fr (List.mem_cons_of_mem _ hf))
            (List.pairwise_cons.mp h2).2 ?_ ?_ hrun
          · intro fr hfr x hx
            rcases List.mem_append.mp hx with hx | hx
            · exact h3 fr (List.mem_cons_of_mem _ hfr) x hx
            · have hx' : x = (cur.n, (perm.take cur.depth ++ [cur.value]).drop 1) := by
                simpa using hx
              subst hx'
              intro hcone
              exact (List.pairwise_cons.mp h2).1 fr hfr cur.n (InCone_self cur) hcone
          · rw [List.map_append, List.nodup_append]
            refine ⟨h4, by simp, ?_⟩
            intro a ha hb
            have hb' : a = cur.n := by simpa using hb
            subst hb'
            obtain ⟨x, hx, hxa⟩ := List.mem_map.mp ha
            exact h3 cur (List.mem_cons_self _ _) x hx (hxa ▸ InCone_self cur)
        · rw [if_neg hopt] at hrun
          -- the children pushed onto the stack
          set k := options.length with hk
          have hkpos : 0 < k := Nat.pos_of_ne_zero hopt
          set children : List (Frame S V) := options.enum.map (fun io : Nat × V =>
            { n := if options.length = 1 then cur.n else cur.n + io.1 * cur.cumuOpts,
              depth := cur.depth + 1, value := some io.2, generator := g1,
              cumuOpts := cur.cumuOpts * options.length : Frame S V }) with hch
          have hcur1 : 1 ≤ cur.cumuOpts := h1 cur (List.mem_cons_self _ _)
          have hchmem : ∀ fr ∈ children, fr.cumuOpts = cur.cumuOpts * k ∧
              ∀ m, InCone fr m → InCone cur m := by
            intro fr hfr
            obtain ⟨io, hio, rfl⟩ := List.mem_map.mp hfr
            refine ⟨rfl, ?_⟩
            rintro m ⟨q, rfl⟩
            by_cases h1' : options.length = 1
            · exact ⟨k * q, by simp [h1', hk, Nat.mul_assoc]⟩
            · exact ⟨io.1 + k * q, by simp [h1', Nat.mul_add, Nat.mul_assoc, Nat.add_assoc,
                Nat.mul_comm io.1 cur.cumuOpts]⟩
          have hchdisj : children.Pairwise
              (fun f f' => ∀ m, InCone f m → InCone f' m → False) := by
            rw [List.pairwise_iff_getElem]
            intro a b ha hb hab
            have hlen : children.length = k := by simp [hch]
            have ha' : a < k := hlen ▸ ha
            have hb' : b < k := hlen ▸ hb
            have hk2 : options.length ≠ 1 := by omega
            have hgeta : children[a].n = cur.n + a * cur.cumuOpts := by
              simp [hch, List.getElem_enum, hk2]
            have hgeta2 : children[a].cumuOpts = cur.cumuOpts * options.length := by
              simp [hch, List.getElem_enum]
            have hgetb : children[b].n = cur.n + b * cur.cumuOpts := by
              simp [hch, List.getElem_enum, hk2]
            have hgetb2 : children[b].cumuOpts = cur.cumuOpts * options.length := by
              simp [hch, List.getElem_enum]
            rintro m ⟨q, hq⟩ ⟨q', hq'⟩
            rw [hgeta, hgeta2] at hq
            rw [hgetb, hgetb2] at hq'
            have heq : a + k * q = b + k * q' := by
              have h0 : cur.cumuOpts * (a + k * q) = cur.cumuOpts * (b + k * q') := by
                have := hq ▸ hq'
                calc cur.cumuOpts * (a + k * q)
                    = a * cur.cumuOpts + cur.cumuOpts * options.length * q := by ring
                  _ = b * cur.cumuOpts + cur.cumuOpts * options.length * q' := by omega
                  _ = cur.cumuOpts * (b + k * q') := by ring
              exact Nat.eq_of_mul_eq_mul_left hcur1 h0
            have : a = b := by
              have ha2 : (a + k * q) % k = a := by
                rw [Nat.add_mul_mod_self_left, Nat.mod_eq_of_lt ha']
              have hb2 : (b + k * q') % k = b := by
                rw [Nat.add_mul_mod_self_left, Nat.mod_eq_of_lt hb']
              rw [← ha2, ← hb2, heq]
            omega
          refine ih (children.reverse ++ rest) _ _ res ?_ ?_ ?_ h4 hrun
          · intro fr hfr
            rcases List.mem_append.mp hfr with hfr | hfr
            · have := (hchmem fr (List.mem_reverse.mp hfr)).1
              rw [this]
              exact Nat.mul_pos hcur1 hkpos
            · exact h1 fr (List.mem_cons_of_mem _ hfr)
          · rw [List.pairwise_append]
            refine ⟨List.pairwise_reverse.mpr ?_, (List.pairwise_cons.mp h2).2, ?_⟩
            · apply List.Pairwise.imp ?_ hchdisj
              intro f f' hr m hm hm'
              exact hr m hm' hm
            · intro f hf f' hf' m hm hm'
              have hcone := (hchmem f (List.mem_reverse.mp hf)).2 m hm
              exact (List.pairwise_cons.mp h2).1 f' hf' m hcone hm'
          · intro fr hfr x hx
            rcases List.mem_append.mp hfr with hfr | hfr
            · intro hcone
              exact h3 cur (List.mem_cons_self _ _) x hx
                ((hchmem fr (List.mem_reverse.mp hfr)).2 x.1 hcone)
            · exact h3 fr (List.mem_cons_of_mem _ hfr) x hx

/-! ### Every emitted pair is a subtree leaf of a worklist frame

The `perm` buffer is shared by all frames; the ghost data justifying its
reuse is, for each frame, the prefix (of length `depth`) that the buffer
must hold when the frame is popped.  Stack frames are ordered by
non-increasing depth from the top, and each ghost prefix is a prefix of the
current buffer. -/

theorem isPre_take_of_le {α : Type} {p l : List α} (h : p <+: l) (k : Nat)
    (hk : p.length ≤ k) : p <+: l.take k := by
  obtain ⟨t, rfl⟩ := h
  rw [List.take_append_eq_append_take, List.take_of_length_le hk]
  exact List.prefix_append _ _

theorem take_of_isPre {α : Type} {p l : List α} (h : p <+: l) :
    l.take p.length = p :=
  (List.prefix_iff_eq_take.mp h).symm

theorem ForEachRun_emits {S V : Type} (gen : OptionGeneratorFn S V) :
    ∀ (fuel : Nat) (wlp : List (Frame S V × List (Option V)))
      (perm : List (Option V)) (acc res : List (Nat × List (Option V))),
      (∀ fp ∈ wlp, fp.2.length = fp.1.depth ∧ fp.2 <+: perm) →
      wlp.Pairwise (fun f f' => f'.1.depth ≤ f.1.depth) →
      ForEachRun gen fuel (wlp.map Prod.fst) perm acc = some res →
      ∀ x ∈ res, x ∈ acc ∨ ∃ fp ∈ wlp, ∃ path,
        Leaf gen fp.1.generator fp.1.value fp.1.n fp.1.cumuOpts x.1 path ∧
        x.2 = (fp.2 ++ fp.1.value :: path.map some).drop 1 ∧ path.length < fuel := by
  intro fuel
  induction fuel with
  | zero =>
    intro wlp perm acc res hinv hpw hrun x hx
    cases wlp with
    | nil =>
      simp only [List.map_nil, ForEachRun, Option.some_inj] at hrun
      exact Or.inl (hrun ▸ hx)
    | cons fp restp => simp [ForEachRun] at hrun
  | succ fuel ih =>
    intro wlp perm acc res hinv hpw hrun x hx
    cases wlp with
    | nil =>
      simp only [List.map_nil, ForEachRun, Option.some_inj] at hrun
      exact Or.inl (hrun ▸ hx)
    | cons fp restp =>
      obtain ⟨hlen, hpre⟩ := hinv fp (List.mem_cons_self _ _)
      have htake : perm.take fp.1.depth = fp.2 := by
        rw [← hlen]; exact take_of_isPre hpre
      simp only [List.map_cons, ForEachRun] at hrun
      cases hgen : gen fp.1.generator fp.1.value with
      | none => rw [hgen] at hrun; simp at hrun
      | some pr =>
        obtain ⟨g1, options⟩ := pr
        rw [hgen] at hrun
        dsimp only at hrun
        rw [htake] at hrun
        by_cases hopt : options.length = 0
        · rw [if_pos hopt] at hrun
          have hopts : options = [] := List.length_eq_zero.mp hopt
          subst hopts
          have hrest : ∀ fp' ∈ restp, fp'.2.length = fp'.1.depth ∧
              fp'.2 <+: fp.2 ++ [fp.1.value] := by
            intro fp' hfp'
            obtain ⟨hl', hp'⟩ := hinv fp' (List.mem_cons_of_mem _ hfp')
            refine ⟨hl', ?_⟩
            have hd : fp'.1.depth ≤ fp.1.depth :=
              (List.pairwise_cons.mp hpw).1 fp' hfp'
            have hpt : fp'.2 <+: perm.take fp.1.depth :=
              isPre_take_of_le hp' _ (hl' ▸ hd)
            rw [htake] at hpt
            exact hpt.trans (List.prefix_append _ _)
          have H := ih restp _ _ res hrest (List.pairwise_cons.mp hpw).2 hrun x hx
          rcases H with H | ⟨fp', hfp', path, hleaf, hperm, hlt⟩
          · rcases List.mem_append.mp H with H | H
            · exact Or.inl H
            · right
              have hx' : x = (fp.1.n, (fp.2 ++ [fp.1.value]).drop 1) := by simpa using H
              subst hx'
              exact ⟨fp, List.mem_cons_self _ _, [], Leaf.done hgen, by simp, Nat.succ_pos _⟩
          · exact Or.inr ⟨fp', List.mem_cons_of_mem _ hfp', path, hleaf, hperm,
              Nat.lt_succ_of_lt hlt⟩
        · rw [if_neg hopt] at hrun
          set children : List (Frame S V) := options.enum.map (fun io : Nat × V =>
            { n := if options.length = 1 then fp.1.n else fp.1.n + io.1 * fp.1.cumuOpts,
              depth := fp.1.depth + 1, value := some io.2, generator := g1,
              cumuOpts := fp.1.cumuOpts * options.length : Frame S V }) with hch
          have hchdepth : ∀ c ∈ children, c.depth = fp.1.depth + 1 := by
            intro c hc
            obtain ⟨io, _, rfl⟩ := List.mem_map.mp hc
            rfl
          set wlp' : List (Frame S V × List (Option V)) :=
            (children.map (fun c => (c, fp.2 ++ [fp.1.value]))).reverse ++ restp with hwlp'
          have hmapfst : wlp'.map Prod.fst = children.reverse ++ restp.map Prod.fst := by
            rw [hwlp', List.map_append, List.map_reverse, List.map_map]
            congr 1
            exact congrArg _ (List.map_id _)
          have hrun' : ForEachRun gen fuel (wlp'.map Prod.fst)
              (fp.2 ++ [fp.1.value]) acc = some res := by
            rw [hmapfst]; exact hrun
          have hinv' : ∀ fp' ∈ wlp', fp'.2.length = fp'.1.depth ∧
              fp'.2 <+: fp.2 ++ [fp.1.value] := by
            intro fp' hfp'
            rcases List.mem_append.mp hfp' with h | h
            · obtain ⟨c, hc, rfl⟩ := List.mem_map.mp (List.mem_reverse.mp h)
              refine ⟨?_, List.prefix_refl _⟩
              simp [hchdepth c hc, hlen]
            · obtain ⟨hl', hp'⟩ := hinv fp' (List.mem_cons_of_mem _ h)
              refine ⟨hl', ?_⟩
              have hd : fp'.1.depth ≤ fp.1.depth :=
                (List.pairwise_cons.mp hpw).1 fp' h
              have hpt := isPre_take_of_le hp' _ (hl' ▸ hd)
              rw [htake] at hpt
              exact hpt.trans (List.prefix_append _ _)
          have hpw' : wlp'.Pairwise (fun f f' => f'.1.depth ≤ f.1.depth) := by
            rw [hwlp', List.pairwise_append]
            refine ⟨?_, (List.pairwise_cons.mp hpw).2, ?_⟩
            · rw [List.pairwise_reverse, List.pairwise_map]
              rw [List.pairwise_iff_getElem]
              intro a b ha hb hab
              have h1 := hchdepth children[a] (children.getElem_mem ha)
              have h2 := hchdepth children[b] (children.getElem_mem hb)
              simp only [Function.flip_def]
              omega
            · rintro a ha b hb
              obtain ⟨c, hc, rfl⟩ := List.mem_map.mp (List.mem_reverse.mp ha)
              have h1 := hchdepth c hc
              have h2 : b.1.depth ≤ fp.1.depth := (List.pairwise_cons.mp hpw).1 b hb
              simp only [h1]
              omega
          have H := ih wlp' _ _ res hinv' hpw' hrun' x hx
          rcases H with H | ⟨fp', hfp', path, hleaf, hperm, hlt⟩
          · exact Or.inl H
          · rcases List.mem_append.mp hfp' with h | h
            · obtain ⟨c, hc, rfl⟩ := List.mem_map.mp (List.mem_reverse.mp h)
              obtain ⟨i, hi, rfl⟩ := List.mem_iff_getElem.mp hc
              have hie : i < options.length := by simpa [hch] using hi
              right
              refine ⟨fp, List.mem_cons_self _ _,
                options.get ⟨i, hie⟩ :: path, ?_, ?_, by simpa using hlt⟩
              · refine Leaf.step i hie hgen ?_
                have hn : children[i].n =
                    (if options.length = 1 then fp.1.n else fp.1.n + i * fp.1.cumuOpts) := by
                  simp [hch, List.getElem_enum]
                have hcu : children[i].cumuOpts = fp.1.cumuOpts * options.length := by
                  simp [hch, List.getElem_enum]
                have hv : children[i].value = some (options.get ⟨i, hie⟩) := by
                  simp [hch, List.getElem_enum]
                have hg : children[i].generator = g1 := by
                  simp [hch, List.getElem_enum]
                rw [hn, hcu, hv, hg] at hleaf
                exact hleaf
              · have hv : children[i].value = some (options.get ⟨i, hie⟩) := by
                  simp [hch, List.getElem_enum]
                rw [hperm, hv]
                simp
            · exact Or.inr ⟨fp', List.mem_cons_of_mem _ h, path, hleaf, hperm,
                Nat.lt_succ_of_lt hlt⟩

namespace Branch

theorem dirtyStep_nodeState (g : Graph) (gp : graphPermutation) (gn : Nat)
    (ns : graphNodeState) (x : Nat) :
    (dirtyStep g gp gn ns).nodeState.lookup x =
      if x = gn then some (dirtyResult g gn ns) else gp.nodeState.lookup x := by
  by_cases hx : x = gn
  · subst hx
    rw [if_pos rfl]
    unfold dirtyStep
    cases hcb : g.Callback x x ns.incomingVisited <;> simp only [hcb]
    · simp [dirtyResult, hcb]
    · split
      next h =>
        simp only [lookup_mapSet_self, dirtyResult, hcb, Option.some_inj]
        cases ns
        simp only at h
        simp [h]
      next h => simp [dirtyResult, hcb]
    · split
      next h => simp [dirtyResult, hcb]
      next h =>
        simp only [lookup_mapSet_self, dirtyResult, hcb, Option.some_inj]
        cases ns
        simp only at h
        simp only [Bool.not_eq_true] at h
        simp [h]
  · rw [if_neg hx]
    unfold dirtyStep
    cases hcb : g.Callback gn gn ns.incomingVisited <;> simp only [hcb]
    · exact lookup_mapSet_ne _ _ _ _ hx
    · split
      next h => exact lookup_mapSet_ne _ _ _ _ hx
      next h =>
        rw [lookup_mapSet_ne _ _ _ _ hx, lookup_mapSet_ne _ _ _ _ hx]
    · split
      next h =>
        rw [lookup_mapSet_ne _ _ _ _ hx, lookup_mapSet_ne _ _ _ _ hx]
      next h =>
        rw [lookup_mapSet_ne _ _ _ _ hx, lookup_mapSet_ne _ _ _ _ hx]

theorem dirtyStep_current (g : Graph) (gp : graphPermutation) (gn : Nat)
    (ns : graphNodeState) :
    (dirtyStep g gp gn ns).current =
      match g.Callback gn gn ns.incomingVisited with
      | Inhibit => if ns.available then gp.current.erase gn else gp.current
      | MakeAvailable => if ns.available then gp.current else gp.current ++ [gn]
      | NoChange => gp.current := by
  unfold dirtyStep
  cases hcb : g.Callback gn gn ns.incomingVisited <;> simp only [hcb] <;>
    (try split) <;> rfl

theorem InvGP_dirtyStep (g : Graph) (gp : graphPermutation) (gn : Nat)
    (ns : graphNodeState) (hinv : InvGP gp) (hinh : ns.inhibited = false)
    (hmem : ns.available = true ↔ gn ∈ gp.current) :
    InvGP (dirtyStep g gp gn ns) := by
  have hcur := dirtyStep_current g gp gn ns
  have hns := dirtyStep_nodeState g gp gn ns
  cases hcb : g.Callback gn gn ns.incomingVisited <;> rw [hcb] at hcur <;>
    dsimp only at hcur <;> simp only [dirtyResult, hcb] at hns
  case NoChange =>
    refine ⟨?_, ?_, ?_⟩
    · rw [hcur]; exact hinv.nodup
    · intro x s hs
      rw [hns x] at hs
      rw [hcur]
      by_cases hx : x = gn
      · subst hx
        rw [if_pos rfl] at hs
        cases hs
        simpa [hinh] using hmem
      · rw [if_neg hx] at hs
        exact hinv.mem_iff x s hs
    · intro x hx
      rw [hcur] at hx
      rw [hns x]
      by_cases hxg : x = gn
      · simp [hxg]
      · rw [if_neg hxg]
        exact hinv.mem_state x hx
  case MakeAvailable =>
    by_cases hav : ns.available = true
    · rw [if_pos hav] at hcur
      refine ⟨?_, ?_, ?_⟩
      · rw [hcur]; exact hinv.nodup
      · intro x s hs
        rw [hns x] at hs
        rw [hcur]
        by_cases hx : x = gn
        · subst hx
          rw [if_pos rfl] at hs
          cases hs
          simpa [hinh] using hmem.mp hav
        · rw [if_neg hx] at hs
          exact hinv.mem_iff x s hs
      · intro x hx
        rw [hcur] at hx
        rw [hns x]
        by_cases hxg : x = gn
        · simp [hxg]
        · rw [if_neg hxg]
          exact hinv.mem_state x hx
    · rw [if_neg hav] at hcur
      have hgn : gn ∉ gp.current := fun hc => hav (hmem.mpr hc)
      refine ⟨?_, ?_, ?_⟩
      · rw [hcur]
        exact hinv.nodup.append (List.nodup_singleton gn)
          (List.disjoint_singleton.mpr hgn)
      · intro x s hs
        rw [hns x] at hs
        rw [hcur]
        by_cases hx : x = gn
        · subst hx
          rw [if_pos rfl] at hs
          cases hs
          simp [hinh]
        · rw [if_neg hx] at hs
          rw [List.mem_append, List.mem_singleton]
          have hiff := hinv.mem_iff x s hs
          constructor
          · intro h
            exact Or.inl (hiff.mp h)
          · rintro (h | h)
            · exact hiff.mpr h
            · exact absurd h hx
      · intro x hx
        rw [hcur, List.mem_append, List.mem_singleton] at hx
        rw [hns x]
        rcases hx with hx | rfl
        · by_cases hxg : x = gn
          · simp [hxg]
          · rw [if_neg hxg]
            exact hinv.mem_state x hx
        · simp
  case Inhibit =>
    by_cases hav : ns.available = true
    · rw [if_pos hav] at hcur
      refine ⟨?_, ?_, ?_⟩
      · rw [hcur]; exact hinv.nodup.erase gn
      · intro x s hs
        rw [hns x] at hs
        rw [hcur]
        by_cases hx : x = gn
        · subst hx
          rw [if_pos rfl] at hs
          cases hs
          simp [hinv.nodup.not_mem_erase]
        · rw [if_neg hx] at hs
          rw [List.mem_erase_of_ne hx]
          exact hinv.mem_iff x s hs
      · intro x hx
        rw [hcur] at hx
        have hx' : x ∈ gp.current := List.mem_of_mem_erase hx
        rw [hns x]
        by_cases hxg : x = gn
        · simp [hxg]
        · rw [if_neg hxg]
          exact hinv.mem_state x hx'
    · rw [if_neg hav] at hcur
      have hgn : gn ∉ gp.current := fun hc => hav (hmem.mpr hc)
      refine ⟨?_, ?_, ?_⟩
      · rw [hcur]; exact hinv.nodup
      · intro x s hs
        rw [hns x] at hs
        rw [hcur]
        by_cases hx : x = gn
        · subst hx
          rw [if_pos rfl] at hs
          cases hs
          simp [hgn]
        · rw [if_neg hx] at hs
          exact hinv.mem_iff x s hs
      · intro x hx
        rw [hcur] at hx
        rw [hns x]
        by_cases hxg : x = gn
        · simp [hxg]
        · rw [if_neg hxg]
          exact hinv.mem_state x hx

theorem InvGP_generateStep (g : Graph) (v : Nat) (gp : graphPermutation) (gn : Nat)
    (hinv : InvGP gp) : InvGP (generateStep g v gp gn) := by
  unfold generateStep
  cases hl : gp.nodeState.lookup gn with
  | none =>
    dsimp only
    refine InvGP_dirtyStep g gp gn _ hinv rfl ?_
    simp only [Bool.false_eq_true, false_iff]
    intro hc
    have := hinv.mem_state gn hc
    rw [hl] at this
    simp at this
  | some ns =>
    dsimp only
    by_cases hni : ns.inhibited = true
    · simp only [hni, if_true]
      exact hinv
    · rw [if_neg hni]
      by_cases hvm : v ∈ ns.incomingVisited
      · rw [if_pos hvm]
        exact hinv
      · rw [if_neg hvm]
        refine InvGP_dirtyStep g gp gn _ hinv (by simpa using hni) ?_
        have hiff := hinv.mem_iff gn ns hl
        simp only at hiff ⊢
        constructor
        · intro hav
          exact hiff.mp ⟨hav, by simpa using hni⟩
        · intro hc
          exact (hiff.mpr hc).1

theorem InvGP_generateFold (g : Graph) (v : Nat) :
    ∀ (l : List Nat) (gp : graphPermutation), InvGP gp →
      InvGP (l.foldl (generateStep g v) gp)
  | [], _gp, hinv => hinv
  | gn :: tl, gp, hinv =>
    InvGP_generateFold g v tl (generateStep g v gp gn) (InvGP_generateStep g v gp gn hinv)

theorem InvGP_Generate {g : Graph} {gp : graphPermutation} {lc : Option Nat}
    {gp' : graphPermutation} {out : List Nat} (hinv : InvGP gp)
    (h : Generate g gp lc = some (gp', out)) : InvGP gp' ∧ out = gp'.current := by
  cases lc with
  | none =>
    simp only [Generate, Option.some_inj] at h
    cases h
    exact ⟨hinv, rfl⟩
  | some v =>
    simp only [Generate] at h
    cases hl : gp.nodeState.lookup v with
    | none => rw [hl] at h; simp at h
    | some lcs =>
      rw [hl] at h
      dsimp only at h
      set gp1 : graphPermutation :=
        { current := gp.current.erase v,
          nodeState := mapSet gp.nodeState v { lcs with inhibited := true } } with hgp1
      have hinv1 : InvGP gp1 := by
        refine ⟨hinv.nodup.erase v, ?_, ?_⟩
        · intro x s hs
          rw [hgp1] at hs ⊢
          by_cases hx : x = v
          · subst hx
            rw [lookup_mapSet_self] at hs
            cases hs
            simp [hinv.nodup.not_mem_erase]
          · rw [lookup_mapSet_ne _ _ _ _ hx] at hs
            simp only
            rw [List.mem_erase_of_ne hx]
            exact hinv.mem_iff x s hs
        · intro x hx
          rw [hgp1] at hx ⊢
          simp only at hx ⊢
          by_cases hxv : x = v
          · simp [hxv]
          · rw [lookup_mapSet_ne _ _ _ _ hxv]
            exact hinv.mem_state x (List.mem_of_mem_erase hx)
      have hfold := InvGP_generateFold g v (g.Out v) gp1 hinv1
      cases h
      exact ⟨hfold, rfl⟩

theorem inhibitedIn_dirtyStep_of_ne (g : Graph) (gp : graphPermutation) (gn : Nat)
    (ns : graphNodeState) (x : Nat) (hx : x ≠ gn) (h : inhibitedIn gp x) :
    inhibitedIn (dirtyStep g gp gn ns) x := by
  obtain ⟨s, hs, hsi⟩ := h
  refine ⟨s, ?_, hsi⟩
  rw [dirtyStep_nodeState, if_neg hx]
  exact hs

theorem inhibitedIn_generateStep (g : Graph) (v : Nat) (gp : graphPermutation)
    (gn : Nat) (x : Nat) (h : inhibitedIn gp x) :
    inhibitedIn (generateStep g v gp gn) x := by
  unfold generateStep
  cases hl : gp.nodeState.lookup gn with
  | none =>
    dsimp only
    refine inhibitedIn_dirtyStep_of_ne g gp gn _ x ?_ h
    rintro rfl
    obtain ⟨s, hs, _⟩ := h
    rw [hl] at hs
    exact Option.noConfusion hs
  | some ns =>
    dsimp only
    by_cases hni : ns.inhibited = true
    · simpa [hni] using h
    · rw [if_neg hni]
      by_cases hvm : v ∈ ns.incomingVisited
      · rw [if_pos hvm]
        exact h
      · rw [if_neg hvm]
        refine inhibitedIn_dirtyStep_of_ne g gp gn _ x ?_ h
        rintro rfl
        obtain ⟨s, hs, hsi⟩ := h
        rw [hl] at hs
        cases hs
        exact hni hsi

theorem inhibitedIn_generateFold (g : Graph) (v : Nat) :
    ∀ (l : List Nat) (gp : graphPermutation) (x : Nat), inhibitedIn gp x →
      inhibitedIn (l.foldl (generateStep g v) gp) x
  | [], _, _, h => h
  | gn :: tl, gp, x, h =>
    inhibitedIn_generateFold g v tl _ x (inhibitedIn_generateStep g v gp gn x h)

theorem Generate_sticky {g : Graph} {gp : graphPermutation} {lc : Option Nat}
    {gp' : graphPermutation} {out : List Nat} (h : Generate g gp lc = some (gp', out))
    (x : Nat) (hx : inhibitedIn gp x) : inhibitedIn gp' x := by
  cases lc with
  | none =>
    simp only [Generate, Option.some_inj] at h
    cases h
    exact hx
  | some v =>
    simp only [Generate] at h
    cases hl : gp.nodeState.lookup v with
    | none => rw [hl] at h; simp at h
    | some lcs =>
      rw [hl] at h
      dsimp only at h
      cases h
      apply inhibitedIn_generateFold
      by_cases hxv : x = v
      · subst hxv
        exact ⟨{ lcs with inhibited := true }, by simp [lookup_mapSet_self], rfl⟩
      · obtain ⟨s, hs, hsi⟩ := hx
        exact ⟨s, by simpa [lookup_mapSet_ne _ _ _ _ hxv] using hs, hsi⟩

theorem Generate_chosen_inhibited {g : Graph} {gp : graphPermutation} {v : Nat}
    {gp' : graphPermutation} {out : List Nat}
    (h : Generate g gp (some v) = some (gp', out)) : inhibitedIn gp' v := by
  simp only [Generate] at h
  cases hl : gp.nodeState.lookup v with
  | none => rw [hl] at h; simp at h
  | some lcs =>
    rw [hl] at h
    dsimp only at h
    cases h
    apply inhibitedIn_generateFold
    exact ⟨{ lcs with inhibited := true }, by simp [lookup_mapSet_self], rfl⟩

theorem mem_current_not_inhibited {gp : graphPermutation} (hinv : InvGP gp)
    {x : Nat} (hx : x ∈ gp.current) : ¬ inhibitedIn gp x := by
  rintro ⟨s, hs, hsi⟩
  have := (hinv.mem_iff x s hs).mpr hx
  rw [this.2] at hsi
  exact Bool.noConfusion hsi

theorem lookup_foldl_mapSet {α : Type} (d : α) :
    ∀ (sd : List Nat) (m0 : List (Nat × α)) (x : Nat),
      (sd.foldl (fun m gn => mapSet m gn d) m0).lookup x =
        if x ∈ sd then some d else m0.lookup x := by
  intro sd
  induction sd with
  | nil => intro m0 x; simp
  | cons a tl ih =>
    intro m0 x
    rw [List.foldl_cons, ih]
    by_cases hx : x ∈ tl
    · simp [hx]
    · rw [if_neg hx]
      by_cases hxa : x = a
      · subst hxa
        simp [lookup_mapSet_self]
      · rw [lookup_mapSet_ne _ _ _ _ hxa]
        simp [hx, hxa]

theorem NewGraphPermutation_nodeState (sd : List Nat) (x : Nat) :
    (NewGraphPermutation sd).nodeState.lookup x =
      if x ∈ sd then some { inhibited := false, available := true, incomingVisited := [] }
      else none := by
  unfold NewGraphPermutation
  rw [lookup_foldl_mapSet]
  simp

theorem InvGP_init (sd : List Nat) (hsd : sd.Nodup) : InvGP (NewGraphPermutation sd) := by
  refine ⟨hsd, ?_, ?_⟩
  · intro x s hs
    rw [NewGraphPermutation_nodeState] at hs
    by_cases hx : x ∈ sd
    · rw [if_pos hx] at hs
      cases hs
      simpa [NewGraphPermutation] using hx
    · rw [if_neg hx] at hs
      exact Option.noConfusion hs
  · intro x hx
    have hx' : x ∈ sd := by simpa [NewGraphPermutation] using hx
    rw [NewGraphPermutation_nodeState, if_pos hx']
    rfl

/-! ### Along any subtree of the enumeration, nodes are chosen at most once -/

theorem Leaf_avoid {g : Graph} {gp : graphPermutation} {val : Option Nat}
    {n cumu nf : Nat} {p : List Nat}
    (h : Leaf (Generate g) gp val n cumu nf p) :
    InvGP gp → ∀ x, inhibitedIn gp x → x ∉ p := by
  induction h with
  | done _ => simp
  | step i hi hgen hleaf ih =>
    intro hinv x hx
    obtain ⟨hinv1, houteq⟩ := InvGP_Generate hinv hgen
    have hsticky := Generate_sticky hgen x hx
    intro hmem
    rcases List.mem_cons.mp hmem with hmemh | hmemt
    · apply mem_current_not_inhibited hinv1 ?_ hsticky
      rw [← houteq]
      subst hmemh
      exact List.get_mem _ _ _
    · exact ih hinv1 x hsticky hmemt

theorem Leaf_chosen_not_mem {g : Graph} {gp : graphPermutation} {v : Nat}
    {n cumu nf : Nat} {p : List Nat}
    (h : Leaf (Generate g) gp (some v) n cumu nf p) (hinv : InvGP gp) : v ∉ p := by
  cases h with
  | done _ => simp
  | step i hi hgen hleaf =>
    obtain ⟨hinv1, houteq⟩ := InvGP_Generate hinv hgen
    have hv := Generate_chosen_inhibited hgen
    intro hmem
    rcases List.mem_cons.mp hmem with hmemh | hmemt
    · apply mem_current_not_inhibited hinv1 ?_ hv
      rw [← houteq]
      rw [hmemh]
      exact List.get_mem _ _ _
    · exact Leaf_avoid hleaf hinv1 v hv hmemt

theorem Leaf_nodup {g : Graph} {gp : graphPermutation} {val : Option Nat}
    {n cumu nf : Nat} {p : List Nat}
    (h : Leaf (Generate g) gp val n cumu nf p) : InvGP gp → p.Nodup := by
  induction h with
  | done _ => intro _; exact List.nodup_nil
  | step i hi hgen hleaf ih =>
    intro hinv
    obtain ⟨hinv1, _⟩ := InvGP_Generate hinv hgen
    exact List.nodup_cons.mpr ⟨Leaf_chosen_not_mem hleaf hinv1, ih hinv1⟩

theorem InvGP_applyTrace (g : Graph) :
    ∀ (tr : List (Option Nat)) (gp0 gp : graphPermutation), InvGP gp0 →
      applyTrace g gp0 tr = some gp → InvGP gp := by
  intro tr
  induction tr with
  | nil =>
    intro gp0 gp hinv h
    simp only [applyTrace, Option.some_inj] at h
    exact h ▸ hinv
  | cons v tr ih =>
    intro gp0 gp hinv h
    simp only [applyTrace] at h
    cases hg : Generate g gp0 v with
    | none => rw [hg] at h; exact Option.noConfusion h
    | some pr =>
      rw [hg] at h
      exact ih pr.1 gp (InvGP_Generate hinv (by rw [hg])).1 h

theorem Generate_out_eq {g : Graph} {gp : graphPermutation} {lc : Option Nat}
    {gp' : graphPermutation} {out : List Nat}
    (h : Generate g gp lc = some (gp', out)) : out = gp'.current := by
  cases lc with
  | none =>
    simp only [Generate, Option.some_inj] at h
    cases h
    rfl
  | some v =>
    simp only [Generate] at h
    cases hl : gp.nodeState.lookup v with
    | none => rw [hl] at h; simp at h
    | some lcs =>
      rw [hl] at h
      dsimp only at h
      cases h
      rfl

theorem WInv_dirtyStep (g : Graph) (gp : graphPermutation) (gn : Nat)
    (ns : graphNodeState) (h : WInv gp) : WInv (dirtyStep g gp gn ns) := by
  intro x hx
  rw [dirtyStep_nodeState]
  by_cases hxg : x = gn
  · rw [if_pos hxg]
    rfl
  · rw [if_neg hxg]
    rw [dirtyStep_current g gp gn ns] at hx
    apply h
    cases hcb : g.Callback gn gn ns.incomingVisited <;> rw [hcb] at hx <;>
      dsimp only at hx
    · exact hx
    · split at hx
      · exact hx
      · rcases List.mem_append.mp hx with hx | hx
        · exact hx
        · exact absurd (List.mem_singleton.mp hx) hxg
    · split at hx
      · exact List.mem_of_mem_erase hx
      · exact hx

theorem WInv_generateStep (g : Graph) (v : Nat) (gp : graphPermutation) (gn : Nat)
    (h : WInv gp) : WInv (generateStep g v gp gn) := by
  unfold generateStep
  cases hl : gp.nodeState.lookup gn with
  | none =>
    dsimp only
    exact WInv_dirtyStep g gp gn _ h
  | some ns =>
    dsimp only
    by_cases hni : ns.inhibited = true
    · simpa [hni] using h
    · rw [if_neg hni]
      by_cases hvm : v ∈ ns.incomingVisited
      · rw [if_pos hvm]
        exact h
      · rw [if_neg hvm]
        exact WInv_dirtyStep g gp gn _ h

theorem WInv_generateFold (g : Graph) (v : Nat) :
    ∀ (l : List Nat) (gp : graphPermutation), WInv gp →
      WInv (l.foldl (generateStep g v) gp)
  | [], _, h => h
  | gn :: tl, gp, h =>
    WInv_generateFold g v tl _ (WInv_generateStep g v gp gn h)

theorem mono_dirtyStep (g : Graph) (gp : graphPermutation) (gn : Nat)
    (ns : graphNodeState) (x : Nat) (h : (gp.nodeState.lookup x).isSome) :
    ((dirtyStep g gp gn ns).nodeState.lookup x).isSome := by
  rw [dirtyStep_nodeState]
  by_cases hxg : x = gn
  · rw [if_pos hxg]; rfl
  · rw [if_neg hxg]; exact h

theorem mono_generateStep (g : Graph) (v : Nat) (gp : graphPermutation) (gn : Nat)
    (x : Nat) (h : (gp.nodeState.lookup x).isSome) :
    ((generateStep g v gp gn).nodeState.lookup x).isSome := by
  unfold generateStep
  cases hl : gp.nodeState.lookup gn with
  | none =>
    dsimp only
    exact mono_dirtyStep g gp gn _ x h
  | some ns =>
    dsimp only
    by_cases hni : ns.inhibited = true
    · simpa [hni] using h
    · rw [if_neg hni]
      by_cases hvm : v ∈ ns.incomingVisited
      · rw [if_pos hvm]
        exact h
      · rw [if_neg hvm]
        exact mono_dirtyStep g gp gn _ x h

theorem mono_generateFold (g : Graph) (v : Nat) :
    ∀ (l : List Nat) (gp : graphPermutation) (x : Nat),
      (gp.nodeState.lookup x).isSome →
      ((l.foldl (generateStep g v) gp).nodeState.lookup x).isSome
  | [], _, _, h => h
  | gn :: tl, gp, x, h =>
    mono_generateFold g v tl _ x (mono_generateStep g v gp gn x h)

theorem Generate_state_mono {g : Graph} {gp : graphPermutation} {lc : Option Nat}
    {gp' : graphPermutation} {out : List Nat}
    (h : Generate g gp lc = some (gp', out)) (x : Nat)
    (hx : (gp.nodeState.lookup x).isSome) : (gp'.nodeState.lookup x).isSome := by
  cases lc with
  | none =>
    simp only [Generate, Option.some_inj] at h
    cases h
    exact hx
  | some v =>
    simp only [Generate] at h
    cases hl : gp.nodeState.lookup v with
    | none => rw [hl] at h; simp at h
    | some lcs =>
      rw [hl] at h
      dsimp only at h
      cases h
      apply mono_generateFold
      by_cases hxv : x = v
      · subst hxv
        simp [lookup_mapSet_self]
      · rw [lookup_mapSet_ne _ _ _ _ hxv]
        exact hx

theorem WInv_Generate {g : Graph} {gp : graphPermutation} {lc : Option Nat}
    {gp' : graphPermutation} {out : List Nat} (hw : WInv gp)
    (h : Generate g gp lc = some (gp', out)) : WInv gp' := by
  cases lc with
  | none =>
    simp only [Generate, Option.some_inj] at h
    cases h
    exact hw
  | some v =>
    simp only [Generate] at h
    cases hl : gp.nodeState.lookup v with
    | none => rw [hl] at h; simp at h
    | some lcs =>
      rw [hl] at h
      dsimp only at h
      cases h
      apply WInv_generateFold
      intro x hx
      have hx' : x ∈ gp.current := List.mem_of_mem_erase hx
      by_cases hxv : x = v
      · subst hxv
        simp [lookup_mapSet_self]
      · rw [lookup_mapSet_ne _ _ _ _ hxv]
        exact hw x hx'

theorem runDisc_inv (g : Graph) :
    ∀ (tr : List (Option Nat)) (gp0 : graphPermutation) (fr0 : List Nat)
      (gp : graphPermutation) (fr : List Nat),
      WInv gp0 → (∀ x ∈ fr0, (gp0.nodeState.lookup x).isSome) →
      runDisc g gp0 fr0 tr = some (gp, fr) →
      WInv gp ∧ ∀ x ∈ fr, (gp.nodeState.lookup x).isSome := by
  intro tr
  induction tr with
  | nil =>
    intro gp0 fr0 gp fr hw hf h
    simp only [runDisc, Option.some_inj] at h
    cases h
    exact ⟨hw, hf⟩
  | cons v tr ih =>
    intro gp0 fr0 gp fr hw hf h
    cases v with
    | none =>
      simp only [runDisc] at h
      cases hg : Generate g gp0 none with
      | none => rw [hg] at h; exact absurd h (by simp)
      | some pr =>
        rw [hg] at h
        refine ih pr.1 (fr0 ++ pr.2) gp fr (WInv_Generate hw hg) ?_ h
        intro x hx
        rcases List.mem_append.mp hx with hx | hx
        · exact Generate_state_mono hg x (hf x hx)
        · rw [Generate_out_eq hg] at hx
          exact WInv_Generate hw hg x hx
    | some y =>
      simp only [runDisc] at h
      by_cases hy : y ∈ fr0
      · rw [if_pos hy] at h
        cases hg : Generate g gp0 (some y) with
        | none => rw [hg] at h; exact absurd h (by simp)
        | some pr =>
          rw [hg] at h
          refine ih pr.1 (fr0 ++ pr.2) gp fr (WInv_Generate hw hg) ?_ h
          intro x hx
          rcases List.mem_append.mp hx with hx | hx
          · exact Generate_state_mono hg x (hf x hx)
          · rw [Generate_out_eq hg] at hx
            exact WInv_Generate hw hg x hx
      · rw [if_neg hy] at h
        exact absurd h (by simp)

theorem Generate_isSome_of_state {g : Graph} {gp : graphPermutation} {v : Nat}
    (h : (gp.nodeState.lookup v).isSome) : (Generate g gp (some v)).isSome := by
  simp only [Generate]
  cases hl : gp.nodeState.lookup v with
  | none => rw [hl] at h; exact absurd h (by simp)
  | some lcs => rfl

end Branch

theorem ForEachRun_sim {S S' V V' : Type} (gen : OptionGeneratorFn S V)
    (gen' : OptionGeneratorFn S' V') (σS : S → S') (σV : V → V')
    (hsim : ∀ s v, gen' (σS s) (v.map σV) =
      (gen s v).map (fun r => (σS r.1, r.2.map σV))) :
    ∀ (fuel : Nat) (wl : List (Frame S V)) (perm : List (Option V))
      (acc : List (Nat × List (Option V))),
      ForEachRun gen' fuel (wl.map (mapFrame σS σV)) (perm.map (Option.map σV))
          (acc.map (mapPair σV)) =
        (ForEachRun gen fuel wl perm acc).map (List.map (mapPair σV)) := by
  intro fuel
  induction fuel with
  | zero =>
    intro wl perm acc
    cases wl with
    | nil => simp [ForEachRun]
    | cons cur rest => simp [ForEachRun]
  | succ fuel ih =>
    intro wl perm acc
    cases wl with
    | nil => simp [ForEachRun]
    | cons cur rest =>
      rw [List.map_cons]
      show ForEachRun gen' (fuel + 1) (mapFrame σS σV cur :: rest.map (mapFrame σS σV)) _ _ = _
      simp only [ForEachRun]
      have hval : (mapFrame σS σV cur).value = cur.value.map σV := rfl
      have hgen : gen' (mapFrame σS σV cur).generator ((mapFrame σS σV cur).value) =
          (gen cur.generator cur.value).map (fun r => (σS r.1, r.2.map σV)) :=
        hsim cur.generator cur.value
      cases hg : gen cur.generator cur.value with
      | none =>
        rw [hg] at hgen
        rw [hgen]
        simp
      | some pr =>
        obtain ⟨g1, options⟩ := pr
        rw [hg] at hgen
        rw [hgen]
        simp only [Option.map]
        have hperm1 : (perm.map (Option.map σV)).take (mapFrame σS σV cur).depth ++
            [(mapFrame σS σV cur).value] =
            (perm.take cur.depth ++ [cur.value]).map (Option.map σV) := by
          simp [mapFrame, List.map_take]
        by_cases hopt : options.length = 0
        · rw [hperm1]
          have hopt' : (options.map σV).length = 0 := by simpa using hopt
          rw [if_pos hopt', if_pos hopt]
          have hdrop : ((perm.take cur.depth ++ [cur.value]).map (Option.map σV)).drop 1 =
              ((perm.take cur.depth ++ [cur.value]).drop 1).map (Option.map σV) := by
            rw [List.map_drop]
          rw [hdrop]
          have hacc : acc.map (mapPair σV) ++
              [((mapFrame σS σV cur).n,
                ((perm.take cur.depth ++ [cur.value]).drop 1).map (Option.map σV))] =
              (acc ++ [(cur.n, (perm.take cur.depth ++ [cur.value]).drop 1)]).map
                (mapPair σV) := by
            simp [mapPair, mapFrame]
          rw [hacc]
          exact ih rest _ _
        · have hopt' : ¬ (options.map σV).length = 0 := by simpa using hopt
          rw [hperm1, if_neg hopt', if_neg hopt]
          have hch : (options.map σV).enum.map (fun io : Nat × V' =>
              { n := if (options.map σV).length = 1 then (mapFrame σS σV cur).n
                  else (mapFrame σS σV cur).n + io.1 * (mapFrame σS σV cur).cumuOpts,
                depth := (mapFrame σS σV cur).depth + 1, value := some io.2,
                generator := σS g1,
                cumuOpts := (mapFrame σS σV cur).cumuOpts * (options.map σV).length
                : Frame S' V' }) =
              (options.enum.map (fun io : Nat × V =>
                { n := if options.length = 1 then cur.n else cur.n + io.1 * cur.cumuOpts,
                  depth := cur.depth + 1, value := some io.2, generator := g1,
                  cumuOpts := cur.cumuOpts * options.length : Frame S V })).map
                (mapFrame σS σV) := by
            rw [List.enum_map, List.map_map, List.map_map]
            apply List.map_congr_left
            intro io _
            simp [mapFrame, mapPair, Prod.map]
          rw [hch, ← List.map_reverse, ← List.map_append]
          exact ih _ _ _

namespace Branch

theorem beq_equiv (π : Nat ≃ Nat) (a b : Nat) : (π a == π b) = (a == b) := by
  by_cases h : a = b
  · subst h
    simp
  · have hne : π a ≠ π b := fun hc => h (π.injective hc)
    simp [h, hne]

theorem bne_equiv (π : Nat ≃ Nat) (a b : Nat) : (π a != π b) = (a != b) := by
  rw [bne, bne, beq_equiv]

theorem lookup_map_comm (π : Nat ≃ Nat) (m : List (Nat × graphNodeState)) (x : Nat) :
    (m.map (mapEntry π)).lookup (π x) = (m.lookup x).map (mapNState π) := by
  induction m with
  | nil => rfl
  | cons p rest ih =>
    simp only [List.map_cons, List.lookup, mapEntry]
    rw [beq_equiv]
    by_cases h : x = p.1
    · simp [h]
    · have h' : (x == p.1) = false := by simp [h]
      rw [h']
      exact ih

theorem mapSet_map_comm (π : Nat ≃ Nat) (m : List (Nat × graphNodeState))
    (k : Nat) (v : graphNodeState) :
    mapSet (m.map (mapEntry π)) (π k) (mapNState π v) = (mapSet m k v).map (mapEntry π) := by
  unfold mapSet
  rw [List.map_cons]
  show (π k, mapNState π v) :: _ = (π k, mapNState π v) :: _
  congr 1
  rw [List.filter_map]
  have hfun : ((fun p : Nat × graphNodeState => p.1 != π k) ∘ mapEntry π) =
      (fun p : Nat × graphNodeState => p.1 != k) := by
    funext p
    simp only [Function.comp, mapEntry]
    exact bne_equiv π p.1 k
  rw [hfun]

theorem erase_map_comm (π : Nat ≃ Nat) (l : List Nat) (a : Nat) :
    (l.map π).erase (π a) = (l.erase a).map π :=
  (List.map_erase π.injective l).symm

theorem dirtyStep_equivariant (π : Nat ≃ Nat) (g : Graph) (gp : graphPermutation)
    (gn : Nat) (ns : graphNodeState) :
    dirtyStep (mapGraph π g) (mapGP π gp) (π gn) (mapNState π ns) =
      mapGP π (dirtyStep g gp gn ns) := by
  have hcb : (mapGraph π g).Callback (π gn) (π gn) ((mapNState π ns).incomingVisited) =
      g.Callback gn gn ns.incomingVisited := by
    simp [mapGraph, mapNState, List.map_map, Equiv.symm_comp_self]
  unfold dirtyStep
  rw [hcb]
  cases hres : g.Callback gn gn ns.incomingVisited <;> dsimp only
  case NoChange =>
    show graphPermutation.mk ((mapGP π gp).current)
        (mapSet (mapGP π gp).nodeState (π gn) (mapNState π ns)) = _
    rw [show (mapGP π gp).nodeState = gp.nodeState.map (mapEntry π) from rfl,
      mapSet_map_comm]
    rfl
  case MakeAvailable =>
    show (if (mapNState π ns).available = true then _ else _) = _
    rw [show (mapNState π ns).available = ns.available from rfl]
    by_cases hav : ns.available = true
    · rw [if_pos hav, if_pos hav]
      show graphPermutation.mk ((mapGP π gp).current)
          (mapSet (mapGP π gp).nodeState (π gn) (mapNState π ns)) = _
      rw [show (mapGP π gp).nodeState = gp.nodeState.map (mapEntry π) from rfl,
        mapSet_map_comm]
      rfl
    · rw [if_neg hav, if_neg hav]
      show graphPermutation.mk ((mapGP π gp).current ++ [π gn])
          (mapSet (mapSet (mapGP π gp).nodeState (π gn) (mapNState π ns)) (π gn)
            { mapNState π ns with available := true }) = _
      rw [show (mapGP π gp).nodeState = gp.nodeState.map (mapEntry π) from rfl,
        mapSet_map_comm,
        show ({ mapNState π ns with available := true } : graphNodeState) =
          mapNState π { ns with available := true } from rfl,
        mapSet_map_comm]
      simp [mapGP]
  case Inhibit =>
    show (if (mapNState π ns).available = true then _ else _) = _
    rw [show (mapNState π ns).available = ns.available from rfl]
    by_cases hav : ns.available = true
    · rw [if_pos hav, if_pos hav]
      show graphPermutation.mk
          (((mapGP π gp).current).erase (π gn))
          (mapSet (mapSet (mapGP π gp).nodeState (π gn) (mapNState π ns)) (π gn)
            { mapNState π ns with available := false, inhibited := true }) = _
      rw [show (mapGP π gp).nodeState = gp.nodeState.map (mapEntry π) from rfl,
        mapSet_map_comm,
        show ({ mapNState π ns with available := false, inhibited := true } :
          graphNodeState) =
          mapNState π { ns with available := false, inhibited := true } from rfl,
        mapSet_map_comm,
        show (mapGP π gp).current = gp.current.map π from rfl,
        erase_map_comm]
      rfl
    · rw [if_neg hav, if_neg hav]
      show graphPermutation.mk ((mapGP π gp).current)
          (mapSet (mapSet (mapGP π gp).nodeState (π gn) (mapNState π ns)) (π gn)
            { mapNState π ns with inhibited := true }) = _
      rw [show (mapGP π gp).nodeState = gp.nodeState.map (mapEntry π) from rfl,
        mapSet_map_comm,
        show ({ mapNState π ns with inhibited := true } : graphNodeState) =
          mapNState π { ns with inhibited := true } from rfl,
        mapSet_map_comm]
      rfl

theorem dirtyStep_equivariant_of_eq (π : Nat ≃ Nat) (g : Graph)
    (gp : graphPermutation) (gn : Nat) (ns ns' : graphNodeState)
    (h : ns' = mapNState π ns) :
    dirtyStep (mapGraph π g) (mapGP π gp) (π gn) ns' =
      mapGP π (dirtyStep g gp gn ns) := by
  subst h
  exact dirtyStep_equivariant π g gp gn ns

theorem mapSet_map_comm_of_eq (π : Nat ≃ Nat) (m : List (Nat × graphNodeState))
    (k : Nat) (v v' : graphNodeState) (h : v' = mapNState π v) :
    mapSet (m.map (mapEntry π)) (π k) v' = (mapSet m k v).map (mapEntry π) := by
  subst h
  exact mapSet_map_comm π m k v

theorem generateStep_equivariant (π : Nat ≃ Nat) (g : Graph) (v : Nat)
    (gp : graphPermutation) (gn : Nat) :
    generateStep (mapGraph π g) (π v) (mapGP π gp) (π gn) =
      mapGP π (generateStep g v gp gn) := by
  unfold generateStep
  rw [show (mapGP π gp).nodeState = gp.nodeState.map (mapEntry π) from rfl,
    lookup_map_comm]
  cases hl : gp.nodeState.lookup gn <;> simp only [Option.map]
  case none =>
    exact dirtyStep_equivariant π g gp gn
      { inhibited := false, available := false, incomingVisited := [v] }
  case some ns =>
    rw [show (mapNState π ns).inhibited = ns.inhibited from rfl]
    by_cases hni : ns.inhibited = true
    · rw [if_pos hni, if_pos hni]
    · rw [if_neg hni, if_neg hni]
      have hmm : (π v ∈ (mapNState π ns).incomingVisited) ↔ v ∈ ns.incomingVisited :=
        List.mem_map_of_injective π.injective
      by_cases hvm : v ∈ ns.incomingVisited
      · rw [if_pos hvm, if_pos (hmm.mpr hvm)]
      · rw [if_neg hvm, if_neg (fun hc => hvm (hmm.mp hc))]
        exact dirtyStep_equivariant_of_eq π g gp gn
          { ns with incomingVisited := ns.incomingVisited ++ [v] } _
          (by simp [mapNState])

theorem generateFold_equivariant (π : Nat ≃ Nat) (g : Graph) (v : Nat) :
    ∀ (l : List Nat) (gp : graphPermutation),
      (l.map π).foldl (generateStep (mapGraph π g) (π v)) (mapGP π gp) =
        mapGP π (l.foldl (generateStep g v) gp)
  | [], _ => rfl
  | gn :: tl, gp => by
    rw [List.map_cons, List.foldl_cons, List.foldl_cons,
      generateStep_equivariant π g v gp gn]
    exact generateFold_equivariant π g v tl _

theorem generateFold_equivariant_of_eq (π : Nat ≃ Nat) (g : Graph) (v : Nat)
    (l : List Nat) (gp : graphPermutation) (X : graphPermutation)
    (h : X = mapGP π gp) :
    (l.map π).foldl (generateStep (mapGraph π g) (π v)) X =
      mapGP π (l.foldl (generateStep g v) gp) := by
  subst h
  exact generateFold_equivariant π g v l gp

theorem Generate_equivariant (π : Nat ≃ Nat) (g : Graph) (gp : graphPermutation)
    (lc : Option Nat) :
    Generate (mapGraph π g) (mapGP π gp) (lc.map π) =
      (Generate g gp lc).map (fun r => (mapGP π r.1, r.2.map π)) := by
  cases lc with
  | none => rfl
  | some v =>
    show Generate (mapGraph π g) (mapGP π gp) (some (π v)) = _
    simp only [Generate]
    rw [show (mapGP π gp).nodeState = gp.nodeState.map (mapEntry π) from rfl,
      lookup_map_comm]
    cases hl : gp.nodeState.lookup v <;> simp only [Option.map]
    case some lcs =>
      have hout : (mapGraph π g).Out (π v) = (g.Out v).map π := by
        simp [mapGraph]
      rw [hout,
        show (mapGP π gp).current = gp.current.map π from rfl,
        erase_map_comm π gp.current v,
        mapSet_map_comm_of_eq π gp.nodeState v { lcs with inhibited := true }
          { inhibited := true, available := (mapNState π lcs).available,
            incomingVisited := (mapNState π lcs).incomingVisited }
          (by simp [mapNState]),
        generateFold_equivariant_of_eq π g v (g.Out v)
          (graphPermutation.mk (gp.current.erase v)
            (mapSet gp.nodeState v { lcs with inhibited := true }))
          (graphPermutation.mk ((gp.current.erase v).map π)
            ((mapSet gp.nodeState v { lcs with inhibited := true }).map (mapEntry π)))
          rfl]
      rfl

theorem NewGraphPermutation_foldl_equivariant (π : Nat ≃ Nat) :
    ∀ (sd : List Nat) (m0 : List (Nat × graphNodeState)),
      (sd.map π).foldl
          (fun m gn => mapSet m gn
            { inhibited := false, available := true, incomingVisited := [] })
          (m0.map (mapEntry π)) =
        (sd.foldl
          (fun m gn => mapSet m gn
            { inhibited := false, available := true, incomingVisited := [] })
          m0).map (mapEntry π)
  | [], _ => rfl
  | a :: tl, m0 => by
    rw [List.map_cons, List.foldl_cons, List.foldl_cons,
      mapSet_map_comm_of_eq π m0 a ⟨false, true, []⟩ ⟨false, true, []⟩ rfl]
    exact NewGraphPermutation_foldl_equivariant π tl _

theorem NewGraphPermutation_equivariant (π : Nat ≃ Nat) (sd : List Nat) :
    NewGraphPermutation (sd.map π) = mapGP π (NewGraphPermutation sd) := by
  unfold NewGraphPermutation mapGP
  have := NewGraphPermutation_foldl_equivariant π sd []
  simp only [List.map_nil] at this
  rw [this]

end Branch

namespace Heap

theorem chainListA_irrel (w : World) :
    ∀ (f f' g : Nat), g < f → g < f' → chainListA w f g = chainListA w f' g := by
  intro f
  induction f with
  | zero => intro f' g h; exact absurd h (Nat.not_lt_zero g)
  | succ f ih =>
    intro f' g hf hf'
    cases f' with
    | zero => exact absurd hf' (Nat.not_lt_zero g)
    | succ f'' =>
      simp only [chainListA]
      split
      · rfl
      · split
        · rfl
        · next p _ =>
          split
          · next hlt =>
            rw [ih f'' p (by omega) (by omega)]
          · rfl

theorem chainList_unfold (w : World) (g : Nat) :
    chainList w g =
      match lookupGen w g with
      | none => [g]
      | some gr =>
        match gr.parent with
        | none => [g]
        | some p => if p < g then g :: chainList w p else [g] := by
  show chainListA w (g+1) g = _
  simp only [chainListA]
  split
  · rfl
  · split
    · rfl
    · next p _ =>
      split
      · next hlt =>
        rw [chainListA_irrel w g (p+1) p (by omega) (by omega)]
        rfl
      · rfl

theorem chainFindA_irrel (w : World) :
    ∀ (f f' g : Nat), g < f → g < f' → ∀ nd, chainFindA w f g nd = chainFindA w f' g nd := by
  intro f
  induction f with
  | zero => intro f' g h; exact absurd h (Nat.not_lt_zero g)
  | succ f ih =>
    intro f' g hf hf' nd
    cases f' with
    | zero => exact absurd hf' (Nat.not_lt_zero g)
    | succ f'' =>
      simp only [chainFindA]
      split
      · rfl
      · split
        · rfl
        · split
          · rfl
          · next p _ =>
            split
            · next hlt =>
              rw [ih f'' p (by omega) (by omega)]
            · rfl

theorem chainFind_unfold (w : World) (g : Nat) (nd : Nat) :
    chainFind w g nd =
      match lookupGen w g with
      | none => none
      | some gr =>
        match gr.nodeState.lookup nd with
        | some sid => some sid
        | none =>
          match gr.parent with
          | none => none
          | some p => if p < g then chainFind w p nd else none := by
  show chainFindA w (g+1) g nd = _
  simp only [chainFindA]
  split
  · rfl
  · split
    · rfl
    · split
      · rfl
      · next p _ =>
        split
        · next hlt =>
          rw [chainFindA_irrel w g (p+1) p (by omega) (by omega)]
          rfl
        · rfl

theorem getNodeStateA_irrel (w : World) :
    ∀ (f f' g : Nat), g < f → g < f' → ∀ nd ctl,
      getNodeStateA w f g nd ctl = getNodeStateA w f' g nd ctl := by
  intro f
  induction f with
  | zero => intro f' g h; exact absurd h (Nat.not_lt_zero g)
  | succ f ih =>
    intro f' g hf hf' nd ctl
    cases f' with
    | zero => exact absurd hf' (Nat.not_lt_zero g)
    | succ f'' =>
      simp only [getNodeStateA]
      split
      · rfl
      · split
        · rfl
        · split
          · rfl
          · next p _ =>
            split
            · next hlt =>
              rw [ih f'' p (by omega) (by omega)]
            · rfl

theorem getNodeState_unfold (w : World) (g : Nat) (nd : Nat) (ctl : Bool) :
    getNodeState w g nd ctl =
      match lookupGen w g with
      | none => (w, none)
      | some gr =>
        match gr.nodeState.lookup nd with
        | some sid =>
          match lookupState w sid with
          | some gns =>
            let r := gnsClone w sid gns g
            (r.1, some r.2)
          | none => (w, none)
        | none =>
          match gr.parent with
          | none => (w, none)
          | some p =>
            if p < g then
              match getNodeState w p nd false with
              | (w1, some sid) =>
                if ctl then
                  match lookupState w1 sid with
                  | some gns =>
                    let r := gnsClone w1 sid gns g
                    (r.1, some r.2)
                  | none => (w1, none)
                else (setLocal w1 g nd sid, some sid)
              | (w1, none) => (w1, none)
            else (w, none) := by
  show getNodeStateA w (g+1) g nd ctl = _
  simp only [getNodeStateA]
  split
  · rfl
  · split
    · rfl
    · split
      · rfl
      · next p _ =>
        split
        · next hlt =>
          rw [getNodeStateA_irrel w g (p+1) p (by omega) (by omega)]
          rfl
        · rfl

/-- Membership from a successful association-list lookup. -/
theorem lookup_mem {α : Type} : ∀ {m : List (Nat × α)} {k : Nat} {v : α},
    m.lookup k = some v → (k, v) ∈ m := by
  intro m
  induction m with
  | nil => intro k v h; exact Option.noConfusion h
  | cons p rest ih =>
    intro k v h
    simp only [List.lookup] at h
    split at h
    · next heq =>
      cases h
      have hk : k = p.1 := by simpa using heq
      subst hk
      exact List.mem_cons_self _ _
    · exact List.mem_cons_of_mem _ (ih h)

/-- Unfolding of `chainList` driven by the parent pointer alone. -/
theorem chainList_eq (w : World) (a : Nat) :
    chainList w a =
      match (lookupGen w a).map GenRec.parent with
      | some (some p) => if p < a then a :: chainList w p else [a]
      | _ => [a] := by
  rw [chainList_unfold]
  cases hg : lookupGen w a with
  | none => rfl
  | some gr =>
    obtain ⟨par, cur, ns⟩ := gr
    cases par with
    | none => rfl
    | some p => rfl

theorem chainFind_nogen {w : World} {g nd : Nat} (hg : lookupGen w g = none) :
    chainFind w g nd = none := by
  rw [chainFind_unfold, hg]

/-- Unfolding of `chainFind` once the generator record is known. -/
theorem chainFind_some {w : World} {g : Nat} {gr : GenRec}
    (hg : lookupGen w g = some gr) (nd : Nat) :
    chainFind w g nd =
      match gr.nodeState.lookup nd with
      | some sid => some sid
      | none =>
        match gr.parent with
        | none => none
        | some p => if p < g then chainFind w p nd else none := by
  rw [chainFind_unfold, hg]

theorem chainList_congr {w w' : World}
    (h : ∀ a, (lookupGen w' a).map GenRec.parent = (lookupGen w a).map GenRec.parent) :
    ∀ a, chainList w' a = chainList w a := by
  intro a
  induction a using Nat.strong_induction_on with
  | _ a ih =>
    rw [chainList_eq w', chainList_eq w, h a]
    cases hq : (lookupGen w a).map GenRec.parent with
    | none => rfl
    | some op =>
      cases op with
      | none => rfl
      | some p =>
        show (if p < a then a :: chainList w' p else [a])
            = (if p < a then a :: chainList w p else [a])
        by_cases hlt : p < a
        · rw [if_pos hlt, if_pos hlt, ih p hlt]
        · rw [if_neg hlt, if_neg hlt]

theorem ExtR.toExtM {w w' : World} {g : Nat} (h : ExtR w w' g) : ExtM w w' g :=
  ⟨h.maps, h.skel, fun a _ => h.cur a, fun sid s hs _ => h.states sid s hs,
    fun a _ m => h.cval a m, h.nsmono⟩

theorem ExtM_trans {w w1 w2 : World} {g : Nat} (h1 : ExtM w w1 g)
    (h2 : ExtM w1 w2 g) : ExtM w w2 g := by
  have hchain := chainList_congr h1.skel
  refine ⟨?_, ?_, ?_, ?_, ?_, le_trans h1.nsmono h2.nsmono⟩
  · intro a ha
    rw [h2.maps a (by rw [hchain]; exact ha), h1.maps a ha]
  · intro a
    rw [h2.skel a, h1.skel a]
  · intro a ha
    rw [h2.cur a ha, h1.cur a ha]
  · intro sid s hs hperm
    exact h2.states sid s (h1.states sid s hs hperm) hperm
  · intro a ha m
    rw [h2.cval a (by rw [hchain a]; exact ha) m, h1.cval a ha m]

theorem ExtR_trans {w w1 w2 : World} {g g' : Nat}
    (hsub : chainList w g' ⊆ chainList w g)
    (h1 : ExtR w w1 g') (h2 : ExtR w1 w2 g) : ExtR w w2 g := by
  have hchain := chainList_congr h1.skel
  refine ⟨?_, ?_, ?_, ?_, ?_, le_trans h1.nsmono h2.nsmono⟩
  · intro a ha
    rw [h2.maps a (by rw [hchain]; exact ha), h1.maps a (fun hc => ha (hsub hc))]
  · intro a
    rw [h2.skel a, h1.skel a]
  · intro a
    rw [h2.cur a, h1.cur a]
  · intro sid s hs
    exact h2.states sid s (h1.states sid s hs)
  · intro a m
    rw [h2.cval a m, h1.cval a m]

theorem ExtR.refl (w : World) (g : Nat) : ExtR w w g :=
  ⟨fun _ _ => rfl, fun _ => rfl, fun _ => rfl, fun _ _ h => h, fun _ _ => rfl,
    le_refl _⟩

theorem chainList_self_mem (w : World) (g : Nat) : g ∈ chainList w g := by
  rw [chainList_eq]
  split
  · split
    · exact List.mem_cons_self _ _
    · exact List.mem_singleton.mpr rfl
  · exact List.mem_singleton.mpr rfl

theorem chainList_le (w : World) : ∀ (g : Nat), ∀ b ∈ chainList w g, b ≤ g := by
  intro g
  induction g using Nat.strong_induction_on with
  | _ g ih =>
    intro b hb
    rw [chainList_eq] at hb
    split at hb
    · next p heq =>
      split at hb
      · next hlt =>
        rcases List.mem_cons.mp hb with rfl | hb
        · exact le_refl _
        · exact le_trans (ih p hlt b hb) (le_of_lt hlt)
      · exact le_of_eq (List.mem_singleton.mp hb)
    · exact le_of_eq (List.mem_singleton.mp hb)

theorem mem_mapSet {α : Type} {m : List (Nat × α)} {k : Nat} {v : α} {p : Nat × α}
    (h : p ∈ mapSet m k v) : p = (k, v) ∨ p ∈ m := by
  rcases List.mem_cons.mp h with h | h
  · exact Or.inl h
  · exact Or.inr (List.mem_of_mem_filter h)

theorem chainList_cons {w : World} {g : Nat} {gr : GenRec} {p : Nat}
    (hg : lookupGen w g = some gr) (hp : gr.parent = some p) (hlt : p < g) :
    chainList w g = g :: chainList w p := by
  obtain ⟨par, cur, ns⟩ := gr
  have hp' : par = some p := hp
  subst hp'
  rw [chainList_unfold, hg]
  show (if p < g then g :: chainList w p else [g]) = g :: chainList w p
  rw [if_pos hlt]

theorem chainFind_hit {w : World} {g nd sid : Nat} {gr : GenRec}
    (hg : lookupGen w g = some gr) (hl : gr.nodeState.lookup nd = some sid) :
    chainFind w g nd = some sid := by
  rw [chainFind_some hg, hl]

theorem chainFind_parent {w : World} {g nd p : Nat} {gr : GenRec}
    (hg : lookupGen w g = some gr) (hmiss : gr.nodeState.lookup nd = none)
    (hp : gr.parent = some p) (hlt : p < g) :
    chainFind w g nd = chainFind w p nd := by
  rw [chainFind_some hg, hmiss, hp]
  show (if p < g then chainFind w p nd else none) = chainFind w p nd
  rw [if_pos hlt]

theorem chainVal_parent {w : World} {g nd p : Nat} {gr : GenRec}
    (hg : lookupGen w g = some gr) (hmiss : gr.nodeState.lookup nd = none)
    (hp : gr.parent = some p) (hlt : p < g) :
    chainVal w g nd = chainVal w p nd := by
  unfold chainVal
  rw [chainFind_parent hg hmiss hp hlt]

/-- A chain hit comes from the local map of some generator on the chain. -/
theorem chainFind_spec {w : World} : ∀ (a nd sid : Nat),
    chainFind w a nd = some sid →
    ∃ b gr, b ∈ chainList w a ∧ lookupGen w b = some gr ∧
      gr.nodeState.lookup nd = some sid := by
  intro a
  induction a using Nat.strong_induction_on with
  | _ a ih =>
    intro nd sid h
    rw [chainFind_unfold] at h
    split at h
    · exact Option.noConfusion h
    · next gr hg =>
      split at h
      · next sid' hl =>
        cases h
        exact ⟨a, gr, chainList_self_mem w a, hg, hl⟩
      · next hl =>
        split at h
        · exact Option.noConfusion h
        · next p hp =>
          split at h
          · next hlt =>
            obtain ⟨b, gr', hb, hgb, hlb⟩ := ih p hlt nd sid h
            exact ⟨b, gr', by
              rw [chainList_cons hg hp hlt]
              exact List.mem_cons_of_mem _ hb, hgb, hlb⟩
          · exact Option.noConfusion h

theorem chainList_chain_sub {w : World} : ∀ (a : Nat), ∀ b ∈ chainList w a,
    chainList w b ⊆ chainList w a := by
  intro a
  induction a using Nat.strong_induction_on with
  | _ a ih =>
    intro b hb
    rw [chainList_eq] at hb
    split at hb
    · next p heq =>
      split at hb
      · next hlt =>
        obtain ⟨gr, hg, hp⟩ : ∃ gr, lookupGen w a = some gr ∧ gr.parent = some p := by
          cases hgg : lookupGen w a with
          | none => rw [hgg] at heq; exact Option.noConfusion heq
          | some gr =>
            rw [hgg] at heq
            exact ⟨gr, rfl, by simpa using heq⟩
        rcases List.mem_cons.mp hb with rfl | hb
        · exact fun x hx => hx
        · intro x hx
          rw [chainList_cons hg hp hlt]
          exact List.mem_cons_of_mem _ (ih p hlt b hb hx)
      · obtain rfl := List.mem_singleton.mp hb
        exact fun x hx => hx
    · obtain rfl := List.mem_singleton.mp hb
      exact fun x hx => hx

/-- If the generator records along `a`'s chain agree between two worlds, the
chain and all chain lookups from `a` agree. -/
theorem chain_congr_on {w w' : World} : ∀ (a : Nat),
    (∀ b ∈ chainList w a, lookupGen w' b = lookupGen w b) →
    chainList w' a = chainList w a ∧ ∀ m, chainFind w' a m = chainFind w a m := by
  intro a
  induction a using Nat.strong_induction_on with
  | _ a ih =>
    intro h
    have hga : lookupGen w' a = lookupGen w a := h a (chainList_self_mem w a)
    cases hg : lookupGen w a with
    | none =>
      constructor
      · rw [chainList_unfold w', chainList_unfold w, hga, hg]
      · intro m
        rw [chainFind_unfold w', chainFind_unfold w, hga, hg]
    | some gr =>
      obtain ⟨par, cur, ns⟩ := gr
      cases par with
      | none =>
        constructor
        · rw [chainList_unfold w', chainList_unfold w, hga, hg]
        · intro m
          rw [chainFind_unfold w', chainFind_unfold w, hga, hg]
      | some p =>
        by_cases hlt : p < a
        · have hcons : chainList w a = a :: chainList w p :=
            chainList_cons hg rfl hlt
          have hprem : ∀ b ∈ chainList w p, lookupGen w' b = lookupGen w b := by
            intro b hb
            exact h b (by rw [hcons]; exact List.mem_cons_of_mem _ hb)
          obtain ⟨ihl, ihf⟩ := ih p hlt hprem
          constructor
          · rw [chainList_unfold w', chainList_unfold w, hga, hg]
            show (if p < a then a :: chainList w' p else [a])
                = (if p < a then a :: chainList w p else [a])
            rw [if_pos hlt, if_pos hlt, ihl]
          · intro m
            rw [chainFind_unfold w', chainFind_unfold w, hga, hg]
            show (match ns.lookup m with
              | some sid => some sid
              | none => if p < a then chainFind w' p m else none)
              = (match ns.lookup m with
              | some sid => some sid
              | none => if p < a then chainFind w p m else none)
            cases ns.lookup m with
            | some sid => rfl
            | none =>
              show (if p < a then chainFind w' p m else none)
                  = (if p < a then chainFind w p m else none)
              rw [if_pos hlt, if_pos hlt, ihf m]
        · constructor
          · rw [chainList_unfold w', chainList_unfold w, hga, hg]
            show (if p < a then a :: chainList w' p else [a])
                = (if p < a then a :: chainList w p else [a])
            rw [if_neg hlt, if_neg hlt]
          · intro m
            rw [chainFind_unfold w', chainFind_unfold w, hga, hg]
            show (match ns.lookup m with
              | some sid => some sid
              | none => if p < a then chainFind w' p m else none)
              = (match ns.lookup m with
              | some sid => some sid
              | none => if p < a then chainFind w p m else none)
            cases ns.lookup m with
            | some sid => rfl
            | none =>
              show (if p < a then chainFind w' p m else none)
                  = (if p < a then chainFind w p m else none)
              rw [if_neg hlt, if_neg hlt]

theorem stateOK_elim {w : World} {gid : Nat} {q : Nat × Nat} (h : stateOK w gid q) :
    ∃ s, w.states.lookup q.2 = some s ∧ s.node = q.1 ∧
      s.permutation ∈ chainList w gid := by
  unfold stateOK at h
  split at h
  · next s hs => exact ⟨s, hs, h⟩
  · exact h.elim

theorem stateOK_intro {w : World} {gid : Nat} {q : Nat × Nat} {s : graphNodeState}
    (hs : w.states.lookup q.2 = some s) (hn : s.node = q.1)
    (hc : s.permutation ∈ chainList w gid) : stateOK w gid q := by
  unfold stateOK
  rw [hs]
  exact ⟨hn, hc⟩

theorem stateOK_transport {w w' : World} {gid : Nat} {q : Nat × Nat}
    (hok : stateOK w gid q)
    (hstates : w'.states.lookup q.2 = w.states.lookup q.2)
    (hcl : chainList w' gid = chainList w gid) : stateOK w' gid q := by
  obtain ⟨s, hs, hn, hc⟩ := stateOK_elim hok
  exact stateOK_intro (by rw [hstates]; exact hs) hn (by rw [hcl]; exact hc)

theorem lookupGen_setState (w : World) (sid : Nat) (s : graphNodeState) (a : Nat) :
    lookupGen (setState w sid s) a = lookupGen w a := rfl

theorem currentOf_setState (w : World) (sid : Nat) (s : graphNodeState) (a : Nat) :
    currentOf (setState w sid s) a = currentOf w a := rfl

theorem lookupState_setGen (w : World) (g : Nat) (r : GenRec) (sid : Nat) :
    lookupState (setGen w g r) sid = lookupState w sid := rfl

theorem lookupGen_setGen_self (w : World) (g : Nat) (r : GenRec) :
    lookupGen (setGen w g r) g = some r :=
  lookup_mapSet_self _ _ _

theorem lookupGen_setGen_ne (w : World) (g : Nat) (r : GenRec) {a : Nat} (h : a ≠ g) :
    lookupGen (setGen w g r) a = lookupGen w a :=
  lookup_mapSet_ne _ _ _ _ h

theorem lookupState_setLocal (w : World) (g nd sid sid' : Nat) :
    lookupState (setLocal w g nd sid) sid' = lookupState w sid' := by
  unfold setLocal
  split
  · rfl
  · rfl

theorem lookupGen_setLocal_ne (w : World) (g nd sid : Nat) {a : Nat} (h : a ≠ g) :
    lookupGen (setLocal w g nd sid) a = lookupGen w a := by
  unfold setLocal
  split
  · exact lookupGen_setGen_ne _ _ _ h
  · rfl

theorem lookupGen_setLocal_self {w : World} {g : Nat} {gr : GenRec}
    (hg : lookupGen w g = some gr) (nd sid : Nat) :
    lookupGen (setLocal w g nd sid) g =
      some { gr with nodeState := mapSet gr.nodeState nd sid } := by
  unfold setLocal
  rw [hg]
  show lookupGen (setGen w g { gr with nodeState := mapSet gr.nodeState nd sid }) g = _
  exact lookupGen_setGen_self _ _ _

theorem currentOf_setLocal (w : World) (g nd sid : Nat) (a : Nat) :
    currentOf (setLocal w g nd sid) a = currentOf w a := by
  unfold setLocal
  split
  · next r hr =>
    by_cases ha : a = g
    · subst ha
      unfold currentOf
      rw [lookupGen_setGen_self, hr]
      rfl
    · unfold currentOf
      rw [lookupGen_setGen_ne _ _ _ ha]
  · rfl

theorem chainVal_of_find {w : World} {a m sid : Nat} (h : chainFind w a m = some sid) :
    chainVal w a m = (lookupState w sid).map stateView := by
  unfold chainVal
  rw [h]
  rfl

theorem chainVal_of_find_none {w : World} {a m : Nat} (h : chainFind w a m = none) :
    chainVal w a m = none := by
  unfold chainVal
  rw [h]
  rfl

theorem chainFind_end {w : World} {g m : Nat} {gr : GenRec}
    (hg : lookupGen w g = some gr) (hmiss : gr.nodeState.lookup m = none)
    (hp : gr.parent = none) : chainFind w g m = none := by
  rw [chainFind_some hg, hmiss, hp]

theorem chainFind_stuck {w : World} {g m p : Nat} {gr : GenRec}
    (hg : lookupGen w g = some gr) (hmiss : gr.nodeState.lookup m = none)
    (hp : gr.parent = some p) (hnlt : ¬ p < g) : chainFind w g m = none := by
  rw [chainFind_some hg, hmiss, hp]
  show (if p < g then chainFind w p m else none) = none
  rw [if_neg hnlt]

theorem lookupState_alloc_old {w : World} {s : graphNodeState}
    (hws : ∀ p ∈ w.states, p.1 < w.nextState) {sid : Nat} {s0 : graphNodeState}
    (h : lookupState w sid = some s0) :
    lookupState (allocState w s).1 sid = some s0 := by
  have hlt : sid < w.nextState := hws _ (lookup_mem h)
  show (mapSet w.states w.nextState s).lookup sid = some s0
  rw [lookup_mapSet_ne _ _ _ _ (Nat.ne_of_lt hlt)]
  exact h

/-- Writing to a state object owned by `g` is invisible to every generator
that does not have `g` on its chain. -/
theorem chainVal_setState_off {w : World} {sid : Nat} {sOld : graphNodeState} {g : Nat}
    (hwf : WF w) (hold : lookupState w sid = some sOld) (hog : sOld.permutation = g)
    {a : Nat} (ha : g ∉ chainList w a) (m : Nat) (s : graphNodeState) :
    chainVal (setState w sid s) a m = chainVal w a m := by
  have hfind : chainFind (setState w sid s) a m = chainFind w a m :=
    (@chain_congr_on w (setState w sid s) a (fun b _ => rfl)).2 m
  cases hcf : chainFind w a m with
  | none =>
    rw [chainVal_of_find_none (by rw [hfind]; exact hcf), chainVal_of_find_none hcf]
  | some sid' =>
    obtain ⟨b, gr, hb, hgb, hlb⟩ := chainFind_spec a m sid' hcf
    obtain ⟨s', hs', hn', hc'⟩ :=
      stateOK_elim (hwf.2.2.2.2 (b, gr) (lookup_mem hgb) (m, sid') (lookup_mem hlb))
    have hs2 : lookupState w sid' = some s' := hs'
    have hne : sid' ≠ sid := by
      intro hcontra
      subst hcontra
      rw [hold] at hs2
      cases hs2
      exact ha (chainList_chain_sub a b hb (hog ▸ hc'))
    rw [chainVal_of_find (by rw [hfind]; exact hcf), chainVal_of_find hcf]
    show ((mapSet w.states sid s).lookup sid').map stateView = _
    rw [lookup_mapSet_ne _ _ _ _ hne]
    rfl

theorem setState_extM {w : World} {sid : Nat} {sOld : graphNodeState} {g : Nat}
    (hwf : WF w) (hold : lookupState w sid = some sOld)
    (hog : sOld.permutation = g) (s : graphNodeState) :
    ExtM w (setState w sid s) g := by
  refine ⟨fun a _ => rfl, fun a => rfl, fun a _ => rfl, ?_, ?_, le_refl _⟩
  · intro sid' s' hs' hperm
    by_cases he : sid' = sid
    · subst he
      rw [hold] at hs'
      cases hs'
      exact absurd hog hperm
    · show (mapSet w.states sid s).lookup sid' = some s'
      rw [lookup_mapSet_ne _ _ _ _ he]
      exact hs'
  · intro a ha m
    exact chainVal_setState_off hwf hold hog ha m s

theorem setState_WF {w : World} {sid : Nat} {sOld : graphNodeState}
    (hwf : WF w) (hold : lookupState w sid = some sOld)
    {s : graphNodeState} (hnode : s.node = sOld.node)
    (hperm : s.permutation = sOld.permutation) :
    WF (setState w sid s) := by
  obtain ⟨gb, ws, so, pd, oc⟩ := hwf
  have hsidlt : sid < w.nextState := ws _ (lookup_mem hold)
  have hsold := lookup_mem hold
  refine ⟨fun p hp => gb p hp, ?_, ?_, fun p hp => pd p hp, ?_⟩
  · intro p hp
    rcases mem_mapSet hp with rfl | hpold
    · exact hsidlt
    · exact ws _ hpold
  · intro p hp
    rcases mem_mapSet hp with rfl | hpold
    · show s.permutation < w.nextGen
      rw [hperm]
      exact so (sid, sOld) hsold
    · exact so _ hpold
  · intro p hp q hq
    have hok := oc p hp q hq
    obtain ⟨s0, hs0, hn0, hc0⟩ := stateOK_elim hok
    have hcl : chainList (setState w sid s) p.1 = chainList w p.1 :=
      (@chain_congr_on w (setState w sid s) p.1 (fun b _ => rfl)).1
    have hold' : w.states.lookup sid = some sOld := hold
    by_cases he : q.2 = sid
    · have hs0' : s0 = sOld := by
        rw [he] at hs0
        rw [hold'] at hs0
        exact (Option.some_inj.mp hs0.symm)
      refine @stateOK_intro _ _ _ s ?_ ?_ ?_
      · show (mapSet w.states sid s).lookup q.2 = some s
        rw [he]
        exact lookup_mapSet_self _ _ _
      · rw [hnode, ← hs0']
        exact hn0
      · rw [hcl]
        rw [hperm, ← hs0']
        exact hc0
    · refine @stateOK_intro _ _ _ s0 ?_ ?_ ?_
      · show (mapSet w.states sid s).lookup q.2 = some s0
        rw [lookup_mapSet_ne _ _ _ _ he]
        exact hs0
      · exact hn0
      · rw [hcl]
        exact hc0

theorem allocState_extR {w : World} (hwf : WF w) (s : graphNodeState) (g : Nat) :
    ExtR w (allocState w s).1 g := by
  refine ⟨fun a _ => rfl, fun a => rfl, fun a => rfl, ?_, ?_, ?_⟩
  · intro sid s0 h
    exact lookupState_alloc_old hwf.2.1 h
  · intro a m
    have hfind : chainFind (allocState w s).1 a m = chainFind w a m :=
      (@chain_congr_on w (allocState w s).1 a (fun b _ => rfl)).2 m
    cases hcf : chainFind w a m with
    | none =>
      rw [chainVal_of_find_none (by rw [hfind]; exact hcf), chainVal_of_find_none hcf]
    | some sid' =>
      obtain ⟨b, gr, hb, hgb, hlb⟩ := chainFind_spec a m sid' hcf
      obtain ⟨s', hs', _, _⟩ :=
        stateOK_elim (hwf.2.2.2.2 (b, gr) (lookup_mem hgb) (m, sid') (lookup_mem hlb))
      have hs2 : lookupState w sid' = some s' := hs'
      rw [chainVal_of_find (by rw [hfind]; exact hcf), chainVal_of_find hcf,
        lookupState_alloc_old hwf.2.1 hs2, hs2]
  · exact Nat.le_succ _

theorem allocState_WF {w : World} (hwf : WF w) {s : graphNodeState}
    (hperm : s.permutation < w.nextGen) : WF (allocState w s).1 := by
  obtain ⟨gb, ws, so, pd, oc⟩ := hwf
  refine ⟨fun p hp => gb p hp, ?_, ?_, fun p hp => pd p hp, ?_⟩
  · intro p hp
    rcases mem_mapSet hp with rfl | hpold
    · exact Nat.lt_succ_self _
    · exact Nat.lt_trans (ws _ hpold) (Nat.lt_succ_self _)
  · intro p hp
    rcases mem_mapSet hp with rfl | hpold
    · exact hperm
    · exact so _ hpold
  · intro p hp q hq
    have hok := oc p hp q hq
    obtain ⟨s0, hs0, hn0, hc0⟩ := stateOK_elim hok
    have hs2 : lookupState w q.2 = some s0 := hs0
    refine stateOK_intro ?_ hn0 ?_
    · exact lookupState_alloc_old ws hs2
    · rw [(@chain_congr_on w (allocState w s).1 p.1 (fun b _ => rfl)).1]
      exact hc0

/-- Installing a shared read cache (or any entry whose visible value agrees
with the chain) changes no lookup result anywhere. -/
theorem chainVal_setLocal {w : World} {g nd sid : Nat} {gr : GenRec}
    {s : graphNodeState}
    (hg : lookupGen w g = some gr) (hs : lookupState w sid = some s)
    (hview : chainVal w g nd = some (stateView s)) :
    ∀ (a m : Nat), chainVal (setLocal w g nd sid) a m = chainVal w a m := by
  intro a
  induction a using Nat.strong_induction_on with
  | _ a ih =>
    intro m
    by_cases ha : a = g
    · subst ha
      by_cases hm : m = nd
      · subst hm
        have h1 : chainFind (setLocal w a m sid) a m = some sid :=
          chainFind_hit (lookupGen_setLocal_self hg m sid) (lookup_mapSet_self _ _ _)
        rw [chainVal_of_find h1, lookupState_setLocal, hs, hview]
        rfl
      · have hl : (mapSet gr.nodeState nd sid).lookup m = gr.nodeState.lookup m :=
          lookup_mapSet_ne _ _ _ _ hm
        cases hlo : gr.nodeState.lookup m with
        | some sid' =>
          rw [chainVal_of_find (chainFind_hit (lookupGen_setLocal_self hg nd sid)
              (hl.trans hlo)),
            chainVal_of_find (chainFind_hit hg hlo), lookupState_setLocal]
        | none =>
          cases hp : gr.parent with
          | none =>
            rw [chainVal_of_find_none (chainFind_end (lookupGen_setLocal_self hg nd sid)
                (hl.trans hlo) hp),
              chainVal_of_find_none (chainFind_end hg hlo hp)]
          | some p =>
            by_cases hlt : p < a
            · rw [chainVal_parent (lookupGen_setLocal_self hg nd sid)
                  (hl.trans hlo) hp hlt,
                chainVal_parent hg hlo hp hlt]
              exact ih p hlt m
            · rw [chainVal_of_find_none (chainFind_stuck (lookupGen_setLocal_self hg nd sid)
                  (hl.trans hlo) hp hlt),
                chainVal_of_find_none (chainFind_stuck hg hlo hp hlt)]
    · have hga : lookupGen (setLocal w g nd sid) a = lookupGen w a :=
        lookupGen_setLocal_ne _ _ _ _ ha
      cases hg2 : lookupGen w a with
      | none =>
        rw [chainVal_of_find_none (chainFind_nogen (hga.trans hg2)),
          chainVal_of_find_none (chainFind_nogen hg2)]
      | some gr2 =>
        cases hlo : gr2.nodeState.lookup m with
        | some sid' =>
          rw [chainVal_of_find (chainFind_hit (hga.trans hg2) hlo),
            chainVal_of_find (chainFind_hit hg2 hlo), lookupState_setLocal]
        | none =>
          cases hp : gr2.parent with
          | none =>
            rw [chainVal_of_find_none (chainFind_end (hga.trans hg2) hlo hp),
              chainVal_of_find_none (chainFind_end hg2 hlo hp)]
          | some p =>
            by_cases hlt : p < a
            · rw [chainVal_parent (hga.trans hg2) hlo hp hlt,
                chainVal_parent hg2 hlo hp hlt]
              exact ih p hlt m
            · rw [chainVal_of_find_none (chainFind_stuck (hga.trans hg2) hlo hp hlt),
                chainVal_of_find_none (chainFind_stuck hg2 hlo hp hlt)]

theorem setLocal_skel {w : World} {g : Nat} {gr : GenRec}
    (hg : lookupGen w g = some gr) (nd sid : Nat) :
    ∀ a, (lookupGen (setLocal w g nd sid) a).map GenRec.parent =
      (lookupGen w a).map GenRec.parent := by
  intro a
  by_cases ha : a = g
  · subst ha
    rw [lookupGen_setLocal_self hg, hg]
    rfl
  · rw [lookupGen_setLocal_ne _ _ _ _ ha]

theorem setLocal_extR {w : World} {g nd sid : Nat} {gr : GenRec}
    {s : graphNodeState}
    (hg : lookupGen w g = some gr) (hs : lookupState w sid = some s)
    (hview : chainVal w g nd = some (stateView s)) :
    ExtR w (setLocal w g nd sid) g := by
  refine ⟨?_, setLocal_skel hg nd sid, currentOf_setLocal w g nd sid, ?_, ?_, ?_⟩
  · intro a ha
    exact lookupGen_setLocal_ne _ _ _ _
      (fun hc => ha (hc ▸ chainList_self_mem w g))
  · intro sid' s' hs'
    rw [lookupState_setLocal]
    exact hs'
  · exact chainVal_setLocal hg hs hview
  · unfold setLocal
    split
    · exact le_refl _
    · exact le_refl _

theorem setLocal_nextGen (w : World) (g nd sid : Nat) :
    (setLocal w g nd sid).nextGen = w.nextGen := by
  unfold setLocal
  split
  · rfl
  · rfl

theorem setLocal_nextState (w : World) (g nd sid : Nat) :
    (setLocal w g nd sid).nextState = w.nextState := by
  unfold setLocal
  split
  · rfl
  · rfl

theorem setLocal_states (w : World) (g nd sid : Nat) :
    (setLocal w g nd sid).states = w.states := by
  unfold setLocal
  split
  · rfl
  · rfl

theorem setLocal_gens_some {w : World} {g : Nat} {gr : GenRec}
    (hg : lookupGen w g = some gr) (nd sid : Nat) :
    (setLocal w g nd sid).gens =
      mapSet w.gens g { gr with nodeState := mapSet gr.nodeState nd sid } := by
  unfold setLocal
  rw [hg]
  rfl

theorem setLocal_WF {w : World} {g nd sid : Nat} {s : graphNodeState}
    (hwf : WF w) (hs : lookupState w sid = some s) (hnode : s.node = nd)
    (hchain : s.permutation ∈ chainList w g) :
    WF (setLocal w g nd sid) := by
  cases hg : lookupGen w g with
  | none =>
    unfold setLocal
    rw [hg]
    exact hwf
  | some gr =>
    have hcl := chainList_congr (setLocal_skel hg nd sid)
    obtain ⟨gb, ws, so, pd, oc⟩ := hwf
    have hggood := lookup_mem hg
    unfold WF
    rw [setLocal_gens_some hg, setLocal_states, setLocal_nextGen, setLocal_nextState]
    refine ⟨?_, fun p hp => ws p hp, fun p hp => so p hp, ?_, ?_⟩
    · intro p hp
      rcases mem_mapSet hp with rfl | hpold
      · show g < w.nextGen
        exact gb (g, gr) hggood
      · exact gb _ hpold
    · intro p hp
      rcases mem_mapSet hp with rfl | hpold
      · intro pr hpr
        exact pd (g, gr) hggood pr hpr
      · exact pd _ hpold
    · intro p hp q hq
      rcases mem_mapSet hp with rfl | hpold
      · have hq' : q ∈ mapSet gr.nodeState nd sid := hq
        rcases mem_mapSet hq' with rfl | hqold
        · refine stateOK_intro ?_ hnode ?_
          · rw [setLocal_states]
            exact hs
          · rw [hcl g]
            exact hchain
        · exact stateOK_transport (oc (g, gr) hggood q hqold)
            (by rw [setLocal_states]) (hcl g)
      · exact stateOK_transport (oc p hpold q hq)
          (by rw [setLocal_states]) (hcl p.1)

/-- If only frontiers differ (local maps and parents agree everywhere), every
chain and chain lookup agrees. -/
theorem chain_congr_fields {w w' : World}
    (h : ∀ a, (lookupGen w' a).map (fun r => (r.nodeState, r.parent)) =
      (lookupGen w a).map (fun r => (r.nodeState, r.parent))) :
    ∀ a, chainList w' a = chainList w a ∧ ∀ m, chainFind w' a m = chainFind w a m := by
  intro a
  induction a using Nat.strong_induction_on with
  | _ a ih =>
    have hfa := h a
    cases hg : lookupGen w a with
    | none =>
      have hg' : lookupGen w' a = none := by
        rw [hg] at hfa
        cases hq : lookupGen w' a with
        | none => rfl
        | some gr' => rw [hq] at hfa; exact absurd hfa (by simp)
      constructor
      · rw [chainList_unfold w', chainList_unfold w, hg, hg']
      · intro m
        rw [chainFind_unfold w', chainFind_unfold w, hg, hg']
    | some gr =>
      obtain ⟨gr', hg', hfe⟩ : ∃ gr', lookupGen w' a = some gr' ∧
          (gr'.nodeState, gr'.parent) = (gr.nodeState, gr.parent) := by
        rw [hg] at hfa
        cases hq : lookupGen w' a with
        | none => rw [hq] at hfa; exact absurd hfa (by simp)
        | some gr' => rw [hq] at hfa; exact ⟨gr', rfl, by simpa using hfa⟩
      obtain ⟨par, cur, ns⟩ := gr
      obtain ⟨par', cur', ns'⟩ := gr'
      have hns2 : ns = ns' := (congrArg Prod.fst hfe).symm
      have hpar2 : par = par' := (congrArg Prod.snd hfe).symm
      subst hns2
      subst hpar2
      cases par with
      | none =>
        constructor
        · rw [chainList_unfold w', chainList_unfold w, hg, hg']
        · intro m
          rw [chainFind_unfold w', chainFind_unfold w, hg, hg']
      | some p =>
        by_cases hlt : p < a
        · obtain ⟨ihl, ihf⟩ := ih p hlt
          constructor
          · rw [chainList_unfold w', chainList_unfold w, hg, hg']
            show (if p < a then a :: chainList w' p else [a])
                = (if p < a then a :: chainList w p else [a])
            rw [if_pos hlt, if_pos hlt, ihl]
          · intro m
            rw [chainFind_unfold w', chainFind_unfold w, hg, hg']
            show (match ns.lookup m with
              | some sid => some sid
              | none => if p < a then chainFind w' p m else none)
              = (match ns.lookup m with
              | some sid => some sid
              | none => if p < a then chainFind w p m else none)
            cases ns.lookup m with
            | some sid => rfl
            | none =>
              show (if p < a then chainFind w' p m else none)
                  = (if p < a then chainFind w p m else none)
              rw [if_pos hlt, if_pos hlt, ihf m]
        · constructor
          · rw [chainList_unfold w', chainList_unfold w, hg, hg']
            show (if p < a then a :: chainList w' p else [a])
                = (if p < a then a :: chainList w p else [a])
            rw [if_neg hlt, if_neg hlt]
          · intro m
            rw [chainFind_unfold w', chainFind_unfold w, hg, hg']
            show (match ns.lookup m with
              | some sid => some sid
              | none => if p < a then chainFind w' p m else none)
              = (match ns.lookup m with
              | some sid => some sid
              | none => if p < a then chainFind w p m else none)
            cases ns.lookup m with
            | some sid => rfl
            | none =>
              show (if p < a then chainFind w' p m else none)
                  = (if p < a then chainFind w p m else none)
              rw [if_neg hlt, if_neg hlt]

theorem setGen_cur_fields {w : World} {g : Nat} {gr : GenRec}
    (hg : lookupGen w g = some gr) (c : List Nat) :
    ∀ a, (lookupGen (setGen w g { gr with current := c }) a).map
        (fun r => (r.nodeState, r.parent)) =
      (lookupGen w a).map (fun r => (r.nodeState, r.parent)) := by
  intro a
  by_cases ha : a = g
  · subst ha
    rw [lookupGen_setGen_self, hg]
    rfl
  · rw [lookupGen_setGen_ne _ _ _ ha]

theorem setGen_cur_extM {w : World} {g : Nat} {gr : GenRec}
    (hg : lookupGen w g = some gr) (c : List Nat) :
    ExtM w (setGen w g { gr with current := c }) g := by
  have hcc := chain_congr_fields (setGen_cur_fields hg c)
  refine ⟨?_, ?_, ?_, fun sid s h _ => h, ?_, le_refl _⟩
  · intro a ha
    exact lookupGen_setGen_ne _ _ _ (fun hc => ha (hc ▸ chainList_self_mem w g))
  · intro a
    by_cases ha : a = g
    · subst ha
      rw [lookupGen_setGen_self, hg]
      rfl
    · rw [lookupGen_setGen_ne _ _ _ ha]
  · intro a ha
    unfold currentOf
    rw [lookupGen_setGen_ne _ _ _ ha]
  · intro a _ m
    cases hcf : chainFind w a m with
    | none =>
      rw [chainVal_of_find_none (((hcc a).2 m).trans hcf), chainVal_of_find_none hcf]
    | some sid' =>
      rw [chainVal_of_find (((hcc a).2 m).trans hcf), chainVal_of_find hcf]
      rfl

theorem setGen_cur_WF {w : World} {g : Nat} {gr : GenRec}
    (hwf : WF w) (hg : lookupGen w g = some gr) (c : List Nat) :
    WF (setGen w g { gr with current := c }) := by
  have hcc := chain_congr_fields (setGen_cur_fields hg c)
  obtain ⟨gb, ws, so, pd, oc⟩ := hwf
  have hggood := lookup_mem hg
  refine ⟨?_, fun p hp => ws p hp, fun p hp => so p hp, ?_, ?_⟩
  · intro p hp
    rcases mem_mapSet hp with rfl | hpold
    · show g < w.nextGen
      exact gb (g, gr) hggood
    · exact gb _ hpold
  · intro p hp
    rcases mem_mapSet hp with rfl | hpold
    · intro pr hpr
      exact pd (g, gr) hggood pr hpr
    · exact pd _ hpold
  · intro p hp q hq
    rcases mem_mapSet hp with rfl | hpold
    · have hq' : q ∈ gr.nodeState := hq
      exact stateOK_transport (oc (g, gr) hggood q hq') rfl ((hcc g).1)
    · exact stateOK_transport (oc p hpold q hq) rfl ((hcc p.1).1)

/-- `graphNodeState.Clone`: either the object is already owned and is
returned as is, or a transparent owned copy is installed locally. -/
theorem gnsClone_spec {w : World} {sid g : Nat} {gns : graphNodeState}
    {gr : GenRec}
    (hwf : WF w) (hs : lookupState w sid = some gns) (hg : lookupGen w g = some gr)
    (hfind : chainFind w g gns.node = some sid) :
    ExtR w (gnsClone w sid gns g).1 g ∧ WF (gnsClone w sid gns g).1 ∧
    ∃ s', lookupState (gnsClone w sid gns g).1 (gnsClone w sid gns g).2 = some s' ∧
      s'.node = gns.node ∧ s'.permutation = g ∧
      stateView s' = stateView gns ∧
      chainFind (gnsClone w sid gns g).1 g gns.node = some (gnsClone w sid gns g).2 := by
  unfold gnsClone
  by_cases hown : gns.permutation = g
  · rw [if_pos hown]
    exact ⟨ExtR.refl w g, hwf, ⟨gns, hs, rfl, hown, rfl, hfind⟩⟩
  · rw [if_neg hown]
    have hperm2 : ({ gns with permutation := g } : graphNodeState).permutation
        < w.nextGen := by
      show g < w.nextGen
      exact hwf.1 _ (lookup_mem hg)
    have hwf1 : WF (allocState w { gns with permutation := g }).1 :=
      allocState_WF hwf hperm2
    have hext1 : ExtR w (allocState w { gns with permutation := g }).1 g :=
      allocState_extR hwf _ g
    have hfresh : lookupState (allocState w { gns with permutation := g }).1
        w.nextState = some { gns with permutation := g } :=
      lookup_mapSet_self _ _ _
    have hg1 : lookupGen (allocState w { gns with permutation := g }).1 g = some gr := hg
    have hview : chainVal (allocState w { gns with permutation := g }).1 g gns.node
        = some (stateView { gns with permutation := g }) := by
      rw [hext1.cval g gns.node, chainVal_of_find hfind, hs]
      rfl
    have hext2 : ExtR (allocState w { gns with permutation := g }).1
        (setLocal (allocState w { gns with permutation := g }).1 g gns.node
          w.nextState) g :=
      setLocal_extR hg1 hfresh hview
    have hwf2 : WF (setLocal (allocState w { gns with permutation := g }).1 g gns.node
        w.nextState) :=
      setLocal_WF hwf1 hfresh rfl (chainList_self_mem _ g)
    have hchw : chainList w g =
        chainList (allocState w { gns with permutation := g }).1 g :=
      (chainList_congr hext1.skel g).symm
    refine ⟨ExtR_trans (fun x hx => hx) hext1 hext2, hwf2,
      ⟨{ gns with permutation := g }, ?_, rfl, rfl, rfl, ?_⟩⟩
    · rw [lookupState_setLocal]
      exact hfresh
    · exact chainFind_hit (lookupGen_setLocal_self hg1 gns.node w.nextState)
        (lookup_mapSet_self _ _ _)

theorem not_mem_chainList_of_lt (w : World) {a g : Nat} (h : a < g) :
    g ∉ chainList w a := by
  intro hc
  exact absurd (chainList_le w a g hc) (not_le.mpr h)

theorem chainList_tail_lt (w : World) :
    ∀ (g : Nat), ∀ b ∈ chainList w g, b = g ∨ b < g := by
  intro g b hb
  rcases lt_or_eq_of_le (chainList_le w g b hb) with h | h
  · exact Or.inr h
  · exact Or.inl h

/-- Full characterisation of the read path: `getNodeState` has the
transparent footprint `ExtR`, preserves well-formedness, a `some` result is
a live state object for the requested node owned on the chain (owned by the
receiver itself in clone-to-local mode) and registered as the chain hit,
and a `none` result means the chain has no state for the node. -/
theorem getNodeState_spec :
    ∀ (g : Nat), ∀ (w : World) (nd : Nat) (ctl : Bool) (w' : World) (r : Option Nat),
      WF w → getNodeState w g nd ctl = (w', r) →
      ExtR w w' g ∧ WF w' ∧
      (∀ sid, r = some sid →
        ∃ s, lookupState w' sid = some s ∧ s.node = nd ∧
          s.permutation ∈ chainList w' g ∧ (ctl = true → s.permutation = g) ∧
          chainFind w' g nd = some sid) ∧
      (r = none → chainFind w' g nd = none) := by
  intro g
  induction g using Nat.strong_induction_on with
  | _ g ih =>
    intro w nd ctl w' r hwf heq
    rw [getNodeState_unfold] at heq
    split at heq
    · next hg =>
      injection heq with h1 h2
      subst h1
      subst h2
      refine ⟨ExtR.refl w g, hwf, ?_, ?_⟩
      · intro sid hsid
        exact Option.noConfusion hsid
      · intro _
        exact chainFind_nogen hg
    · next gr hg =>
      split at heq
      · next sid0 hl =>
        split at heq
        · next gns hsg =>
          have hfind : chainFind w g nd = some sid0 := chainFind_hit hg hl
          obtain ⟨s0, hs0, hn0, hc0⟩ :=
            stateOK_elim (hwf.2.2.2.2 (g, gr) (lookup_mem hg) (nd, sid0) (lookup_mem hl))
          have hs0' : lookupState w sid0 = some s0 := hs0
          have hge : s0 = gns := by
            rw [hs0'] at hsg
            exact Option.some_inj.mp hsg
          have hn0b : s0.node = nd := hn0
          have hn0' : gns.node = nd := by
            rw [← hge]
            exact hn0b
          have hsg' : lookupState w sid0 = some gns := by
            rw [hs0', hge]
          obtain ⟨hext, hwf2, s', hlook, hnode', hperm', hview', hfind'⟩ :=
            gnsClone_spec hwf hsg' hg (by rw [hn0']; exact hfind)
          injection heq with h1 h2
          subst h1
          subst h2
          refine ⟨hext, hwf2, ?_, ?_⟩
          · intro sid hsid
            injection hsid with h3
            subst h3
            refine ⟨s', hlook, ?_, ?_, fun _ => hperm', ?_⟩
            · rw [hnode', hn0']
            · rw [hperm']
              exact chainList_self_mem _ g
            · rw [hn0'] at hfind'
              exact hfind'
          · intro hcon
            exact Option.noConfusion hcon
        · next hsg =>
          obtain ⟨s0, hs0, _, _⟩ :=
            stateOK_elim (hwf.2.2.2.2 (g, gr) (lookup_mem hg) (nd, sid0) (lookup_mem hl))
          have hs0' : lookupState w sid0 = some s0 := hs0
          rw [hsg] at hs0'
          exact Option.noConfusion hs0'
      · next hl =>
        split at heq
        · next hp =>
          injection heq with h1 h2
          subst h1
          subst h2
          refine ⟨ExtR.refl w g, hwf, ?_, ?_⟩
          · intro sid hsid
            exact Option.noConfusion hsid
          · intro _
            exact chainFind_end hg hl hp
        · next p hp =>
          split at heq
          · next hlt =>
            have hsub : chainList w p ⊆ chainList w g := by
              rw [chainList_cons hg hp hlt]
              exact fun x hx => List.mem_cons_of_mem _ hx
            have hgoff : g ∉ chainList w p := not_mem_chainList_of_lt w hlt
            split at heq
            · next w1 sid1 hrec =>
              obtain ⟨hext1, hwf1, hsome1, _⟩ := ih p hlt w nd false w1 (some sid1) hwf hrec
              obtain ⟨s1, hls1, hn1, hcl1, _, hcf1⟩ := hsome1 sid1 rfl
              have hg1 : lookupGen w1 g = some gr := (hext1.maps g hgoff).trans hg
              have hcons1 : chainList w1 g = g :: chainList w1 p := chainList_cons hg1 hp hlt
              have hfg1 : chainFind w1 g nd = some sid1 := by
                rw [chainFind_parent hg1 hl hp hlt]
                exact hcf1
              split at heq
              · next hctl =>
                split at heq
                · next gns1 hsg1 =>
                  have hge1 : s1 = gns1 := by
                    rw [hls1] at hsg1
                    exact Option.some_inj.mp hsg1
                  subst hge1
                  obtain ⟨hext2, hwf2, s', hlook, hnode', hperm', hview', hfind'⟩ :=
                    gnsClone_spec hwf1 hsg1 hg1 (by rw [hn1]; exact hfg1)
                  injection heq with h1 h2
                  subst h1
                  subst h2
                  refine ⟨ExtR_trans hsub hext1 hext2, hwf2, ?_, ?_⟩
                  · intro sid hsid
                    injection hsid with h3
                    subst h3
                    refine ⟨s', hlook, ?_, ?_, fun _ => hperm', ?_⟩
                    · rw [hnode', hn1]
                    · rw [hperm']
                      exact chainList_self_mem _ g
                    · rw [hn1] at hfind'
                      exact hfind'
                  · intro hcon
                    exact Option.noConfusion hcon
                · next hsg1 =>
                  rw [hsg1] at hls1
                  exact Option.noConfusion hls1
              · next hctl =>
                injection heq with h1 h2
                subst h1
                subst h2
                have hview1 : chainVal w1 g nd = some (stateView s1) := by
                  rw [chainVal_of_find hfg1, hls1]
                  rfl
                have hext2 : ExtR w1 (setLocal w1 g nd sid1) g :=
                  setLocal_extR hg1 hls1 hview1
                have hwf2 : WF (setLocal w1 g nd sid1) :=
                  setLocal_WF hwf1 hls1 hn1
                    (by rw [hcons1]; exact List.mem_cons_of_mem _ hcl1)
                have hclw : chainList (setLocal w1 g nd sid1) g = chainList w1 g :=
                  chainList_congr (setLocal_skel hg1 nd sid1) g
                refine ⟨ExtR_trans hsub hext1 hext2, hwf2, ?_, ?_⟩
                · intro sid hsid
                  injection hsid with h3
                  subst h3
                  refine ⟨s1, ?_, hn1, ?_, ?_, ?_⟩
                  · rw [lookupState_setLocal]
                    exact hls1
                  · rw [hclw, hcons1]
                    exact List.mem_cons_of_mem _ hcl1
                  · intro hx
                    exact absurd hx hctl
                  · exact chainFind_hit (lookupGen_setLocal_self hg1 nd sid1)
                      (lookup_mapSet_self _ _ _)
                · intro hcon
                  exact Option.noConfusion hcon
            · next w1 hrec =>
              obtain ⟨hext1, hwf1, _, hnone1⟩ := ih p hlt w nd false w1 none hwf hrec
              injection heq with h1 h2
              subst h1
              subst h2
              have hg1 : lookupGen w1 g = some gr := (hext1.maps g hgoff).trans hg
              refine ⟨ExtR_trans hsub hext1 (ExtR.refl w1 g), hwf1, ?_, ?_⟩
              · intro sid hsid
                exact Option.noConfusion hsid
              · intro _
                rw [chainFind_parent hg1 hl hp hlt]
                exact hnone1 rfl
          · next hnlt =>
            injection heq with h1 h2
            subst h1
            subst h2
            refine ⟨ExtR.refl w g, hwf, ?_, ?_⟩
            · intro sid hsid
              exact Option.noConfusion hsid
            · intro _
              exact chainFind_stuck hg hl hp hnlt

theorem setLocal_extM (w : World) (g nd sid : Nat) : ExtM w (setLocal w g nd sid) g := by
  refine ⟨?_, ?_, ?_, ?_, ?_, ?_⟩
  · intro a ha
    exact lookupGen_setLocal_ne _ _ _ _ (fun hc => ha (hc ▸ chainList_self_mem w g))
  · intro a
    cases hgg : lookupGen w g with
    | none =>
      unfold setLocal
      rw [hgg]
    | some gr => exact setLocal_skel hgg nd sid a
  · intro a _
    exact currentOf_setLocal w g nd sid a
  · intro sid' s hs _
    rw [lookupState_setLocal]
    exact hs
  · intro a ha m
    have h := @chain_congr_on w (setLocal w g nd sid) a
      (fun b hb => lookupGen_setLocal_ne _ _ _ _ (fun hbg => ha (hbg ▸ hb)))
    cases hcf : chainFind w a m with
    | none =>
      rw [chainVal_of_find_none ((h.2 m).trans hcf), chainVal_of_find_none hcf]
    | some sid' =>
      rw [chainVal_of_find ((h.2 m).trans hcf), chainVal_of_find hcf,
        lookupState_setLocal]
  · rw [setLocal_nextState]

theorem gex_of_skel {w w' : World} {g : Nat}
    (hskel : (lookupGen w' g).map GenRec.parent = (lookupGen w g).map GenRec.parent)
    (hgex : ∃ gr0, lookupGen w g = some gr0) :
    ∃ gr1, lookupGen w' g = some gr1 := by
  obtain ⟨gr0, hg0⟩ := hgex
  rw [hg0] at hskel
  cases hq : lookupGen w' g with
  | none => rw [hq] at hskel; exact absurd hskel (by simp)
  | some gr1 => exact ⟨gr1, rfl⟩

theorem gex_of_chainFind {w : World} {g nd sid : Nat}
    (h : chainFind w g nd = some sid) : ∃ gr, lookupGen w g = some gr := by
  cases hg : lookupGen w g with
  | none => rw [chainFind_nogen hg] at h; exact Option.noConfusion h
  | some gr => exact ⟨gr, rfl⟩

/-- Running the callback and applying its state change mutates only the
`g`-owned object at `sid` and `g`'s own frontier. -/
theorem applyCallbackH_spec {G : Graph} {g sid : Nat} {ns : graphNodeState} {w : World}
    (hwf : WF w) (hs : lookupState w sid = some ns) (hown : ns.permutation = g) :
    ExtM w (applyCallbackH G g sid ns w) g ∧ WF (applyCallbackH G g sid ns w) := by
  unfold applyCallbackH
  split
  · split
    · have hext1 := setState_extM hwf hs hown
        { ns with available := false, inhibited := true }
      have hwf1 : WF (setState w sid { ns with available := false, inhibited := true }) :=
        setState_WF hwf hs rfl rfl
      dsimp only
      split
      · next gr hgr =>
        exact ⟨ExtM_trans hext1 (setGen_cur_extM hgr _), setGen_cur_WF hwf1 hgr _⟩
      · exact ⟨hext1, hwf1⟩
    · have hext1 := setState_extM hwf hs hown { ns with inhibited := true }
      have hwf1 : WF (setState w sid { ns with inhibited := true }) :=
        setState_WF hwf hs rfl rfl
      exact ⟨hext1, hwf1⟩
  · split
    · exact ⟨(ExtR.refl w g).toExtM, hwf⟩
    · have hext1 := setState_extM hwf hs hown { ns with available := true }
      have hwf1 : WF (setState w sid { ns with available := true }) :=
        setState_WF hwf hs rfl rfl
      dsimp only
      split
      · next gr hgr =>
        exact ⟨ExtM_trans hext1 (setGen_cur_extM hgr _), setGen_cur_WF hwf1 hgr _⟩
      · exact ⟨hext1, hwf1⟩
  · exact ⟨(ExtR.refl w g).toExtM, hwf⟩

/-- One successor-loop iteration has the `Generate` footprint. -/
theorem succStep_spec {G : Graph} {g lc : Nat} {w : World} (gn : Nat)
    (hwf : WF w) (hgex : ∃ gr0, lookupGen w g = some gr0) :
    ExtM w (succStep G g lc w gn) g ∧ WF (succStep G g lc w gn) := by
  unfold succStep
  split
  · next w1 sid2 hrec =>
    obtain ⟨hext1, hwf1, hsome1, _⟩ := getNodeState_spec g w gn false w1 (some sid2) hwf hrec
    obtain ⟨s2, hls2, hn2, hcl2, _, hcf2⟩ := hsome1 sid2 rfl
    split
    · next hnone =>
      rw [hnone] at hls2
      exact Option.noConfusion hls2
    · next ns hns =>
      have hge : s2 = ns := by
        rw [hls2] at hns
        exact Option.some_inj.mp hns
      subst hge
      split
      · exact ⟨hext1.toExtM, hwf1⟩
      · split
        · exact ⟨hext1.toExtM, hwf1⟩
        · split
          · next w2 sid3 hclone =>
            obtain ⟨gr1, hg1⟩ := gex_of_skel (hext1.skel g) hgex
            obtain ⟨hext2, hwf2, s', hlook, hnode', hperm', hview', hfind'⟩ :=
              gnsClone_spec hwf1 hls2 hg1 (by rw [hn2]; exact hcf2)
            have hw2 : (gnsClone w1 sid2 s2 g).1 = w2 := congrArg Prod.fst hclone
            have hsid3 : (gnsClone w1 sid2 s2 g).2 = sid3 := congrArg Prod.snd hclone
            rw [hw2] at hext2 hwf2
            rw [hw2, hsid3] at hlook
            have hext3 := setState_extM hwf2 hlook hperm'
              { s2 with
                permutation := g
                incomingVisited := s2.incomingVisited ++ [lc] }
            have hwf3 : WF (setState w2 sid3
                { s2 with
                  permutation := g
                  incomingVisited := s2.incomingVisited ++ [lc] }) :=
              setState_WF hwf2 hlook hnode'.symm hperm'.symm
            obtain ⟨hext4, hwf4⟩ := applyCallbackH_spec hwf3
              (lookup_mapSet_self w2.states sid3
                { s2 with
                  permutation := g
                  incomingVisited := s2.incomingVisited ++ [lc] }) rfl
            exact ⟨ExtM_trans hext1.toExtM
              (ExtM_trans hext2.toExtM (ExtM_trans hext3 hext4)), hwf4⟩
  · next w1 hrec =>
    obtain ⟨hext1, hwf1, _, hnone1⟩ := getNodeState_spec g w gn false w1 none hwf hrec
    obtain ⟨gr1, hg1⟩ := gex_of_skel (hext1.skel g) hgex
    have hpermb : ({ node := gn, permutation := g, inhibited := false, available := false, incomingVisited := [lc] } : graphNodeState).permutation < w1.nextGen := hwf1.1 _ (lookup_mem hg1)
    have hwfA := allocState_WF hwf1 hpermb
    have hextA := allocState_extR hwf1 { node := gn, permutation := g, inhibited := false, available := false, incomingVisited := [lc] } g
    have hsN : lookupState (allocState w1 { node := gn, permutation := g, inhibited := false, available := false, incomingVisited := [lc] }).1 w1.nextState = some { node := gn, permutation := g, inhibited := false, available := false, incomingVisited := [lc] } :=
      lookup_mapSet_self _ _ _
    have hextB := setLocal_extM (allocState w1 { node := gn, permutation := g, inhibited := false, available := false, incomingVisited := [lc] }).1 g gn w1.nextState
    have hwfB := setLocal_WF hwfA hsN rfl (chainList_self_mem _ g)
    obtain ⟨hextC, hwfC⟩ := applyCallbackH_spec hwfB
      ((lookupState_setLocal _ g gn w1.nextState w1.nextState).trans hsN) rfl
    exact ⟨ExtM_trans hext1.toExtM (ExtM_trans hextA.toExtM (ExtM_trans hextB hextC)),
      hwfC⟩

theorem succFold_spec {G : Graph} {g lc : Nat} :
    ∀ (l : List Nat) (w : World), WF w → (∃ gr0, lookupGen w g = some gr0) →
      ExtM w (l.foldl (succStep G g lc) w) g ∧ WF (l.foldl (succStep G g lc) w) ∧
      (∃ gr1, lookupGen (l.foldl (succStep G g lc) w) g = some gr1) := by
  intro l
  induction l with
  | nil =>
    intro w hwf hgex
    exact ⟨(ExtR.refl w g).toExtM, hwf, hgex⟩
  | cons x xs ihl =>
    intro w hwf hgex
    obtain ⟨hext1, hwf1⟩ := succStep_spec x hwf hgex
    have hgex1 : ∃ gr1, lookupGen (succStep G g lc w x) g = some gr1 :=
      gex_of_skel (hext1.skel g) hgex
    obtain ⟨hext2, hwf2, hgex2⟩ := ihl (succStep G g lc w x) hwf1 hgex1
    exact ⟨ExtM_trans hext1 hext2, hwf2, hgex2⟩

/-- The `Generate` footprint: a successful call mutates only state objects
owned by the receiver, the receiver's own frontier and local map, and is
invisible to every generator that does not have the receiver on its parent
chain. -/
theorem Generate_spec {G : Graph} {w : World} {g : Nat} {v : Option Nat}
    {w' : World} {out : List Nat}
    (hwf : WF w) (h : Generate G w g v = some (w', out)) :
    ExtM w w' g ∧ WF w' := by
  unfold Generate at h
  split at h
  · cases hg : lookupGen w g with
    | none =>
      rw [hg] at h
      exact Option.noConfusion h
    | some gr =>
      rw [hg] at h
      injection h with h1
      injection h1 with h2 h3
      subst h2
      exact ⟨(ExtR.refl w g).toExtM, hwf⟩
  · next v' =>
    split at h
    · exact Option.noConfusion h
    · next w1 sid hgns =>
      obtain ⟨hext1, hwf1, hsome1, _⟩ := getNodeState_spec g w v' true w1 (some sid) hwf hgns
      obtain ⟨lcs0, hls0, hn0, hcl0, hownf, hcf0⟩ := hsome1 sid rfl
      have hown0 : lcs0.permutation = g := hownf rfl
      split at h
      · next hnone =>
        rw [hnone] at hls0
        exact Option.noConfusion hls0
      · next lcs hlcs =>
        have hge : lcs0 = lcs := by
          rw [hls0] at hlcs
          exact Option.some_inj.mp hlcs
        subst hge
        have hext2 := setState_extM hwf1 hls0 hown0 { lcs0 with inhibited := true }
        have hwf2 : WF (setState w1 sid { lcs0 with inhibited := true }) :=
          setState_WF hwf1 hls0 rfl rfl
        have hgex2 : ∃ gr2, lookupGen (setState w1 sid { lcs0 with inhibited := true }) g
            = some gr2 := by
          obtain ⟨gr2, hg2'⟩ := gex_of_chainFind hcf0
          exact ⟨gr2, (lookupGen_setState w1 sid _ g).trans hg2'⟩
        dsimp only at h
        split at h
        · next gr2 hg2 =>
          have hext3 := setGen_cur_extM hg2 (gr2.current.erase v')
          have hwf3 := setGen_cur_WF hwf2 hg2 (gr2.current.erase v')
          obtain ⟨hext4, hwf4, hgex4⟩ := succFold_spec (G.Out lcs0.node)
            (setGen (setState w1 sid { lcs0 with inhibited := true }) g
              { gr2 with current := gr2.current.erase v' }) hwf3
            ⟨_, lookupGen_setGen_self _ _ _⟩
          obtain ⟨gr4, hg4⟩ := hgex4
          rw [hg4] at h
          injection h with h5
          injection h5 with h6 h7
          subst h6
          exact ⟨ExtM_trans hext1.toExtM (ExtM_trans hext2 (ExtM_trans hext3 hext4)),
            hwf4⟩
        · next hg2 =>
          obtain ⟨gr2, hg2'⟩ := hgex2
          exact Option.noConfusion (hg2'.symm.trans hg2)

theorem Clone_snd {w : World} {g : Nat} {gr : GenRec} (hg : lookupGen w g = some gr) :
    (Clone w g).2 = w.nextGen := by
  unfold Clone
  rw [hg]

theorem Clone_states (w : World) (g : Nat) : (Clone w g).1.states = w.states := by
  unfold Clone
  split
  · rfl
  · rfl

theorem Clone_nextState (w : World) (g : Nat) :
    (Clone w g).1.nextState = w.nextState := by
  unfold Clone
  split
  · rfl
  · rfl

theorem Clone_gens_ne {w : World} {g : Nat} {gr : GenRec}
    (hg : lookupGen w g = some gr) {a : Nat} (ha : a ≠ w.nextGen) :
    lookupGen (Clone w g).1 a = lookupGen w a := by
  unfold Clone
  rw [hg]
  show (mapSet w.gens w.nextGen
    { parent := some g, current := gr.current, nodeState := [] }).lookup a
    = w.gens.lookup a
  exact lookup_mapSet_ne _ _ _ _ ha

theorem Clone_self {w : World} {g : Nat} {gr : GenRec}
    (hg : lookupGen w g = some gr) :
    lookupGen (Clone w g).1 w.nextGen =
      some { parent := some g, current := gr.current, nodeState := [] } := by
  unfold Clone
  rw [hg]
  show (mapSet w.gens w.nextGen
    { parent := some g, current := gr.current, nodeState := [] }).lookup w.nextGen = _
  exact lookup_mapSet_self _ _ _

/-- `Clone` leaves the chain and every chain lookup of every existing
generator unchanged. -/
theorem Clone_chain_old {w : World} {g : Nat} {gr : GenRec}
    (_hwf : WF w) (hg : lookupGen w g = some gr) {a : Nat} (ha : a < w.nextGen) :
    chainList (Clone w g).1 a = chainList w a ∧
      ∀ m, chainFind (Clone w g).1 a m = chainFind w a m := by
  refine @chain_congr_on w (Clone w g).1 a ?_
  intro b hb
  have hble : b ≤ a := chainList_le w a b hb
  exact Clone_gens_ne hg (Nat.ne_of_lt (lt_of_le_of_lt hble ha))

theorem Clone_chainVal_old {w : World} {g : Nat} {gr : GenRec}
    (hwf : WF w) (hg : lookupGen w g = some gr) {a : Nat} (ha : a < w.nextGen)
    (m : Nat) : chainVal (Clone w g).1 a m = chainVal w a m := by
  have hcf := (Clone_chain_old hwf hg ha).2 m
  cases hx : chainFind w a m with
  | none =>
    rw [chainVal_of_find_none (hcf.trans hx), chainVal_of_find_none hx]
  | some sid =>
    rw [chainVal_of_find (hcf.trans hx), chainVal_of_find hx]
    show ((Clone w g).1.states.lookup sid).map stateView = _
    rw [Clone_states]
    rfl

theorem Clone_gens_some {w : World} {g : Nat} {gr : GenRec}
    (hg : lookupGen w g = some gr) :
    (Clone w g).1.gens = mapSet w.gens w.nextGen
      { parent := some g, current := gr.current, nodeState := [] } := by
  unfold Clone
  rw [hg]

theorem Clone_nextGen_some {w : World} {g : Nat} {gr : GenRec}
    (hg : lookupGen w g = some gr) :
    (Clone w g).1.nextGen = w.nextGen + 1 := by
  unfold Clone
  rw [hg]

theorem Clone_WF {w : World} {g : Nat} {gr : GenRec}
    (hwf : WF w) (hg : lookupGen w g = some gr) : WF (Clone w g).1 := by
  obtain ⟨gb, ws, so, pd, oc⟩ := hwf
  have hglt : g < w.nextGen := gb (g, gr) (lookup_mem hg)
  unfold WF
  rw [Clone_gens_some hg, Clone_states, Clone_nextState, Clone_nextGen_some hg]
  refine ⟨?_, fun p hp => ws p hp, ?_, ?_, ?_⟩
  · intro p hp
    rcases mem_mapSet hp with rfl | hpold
    · exact Nat.lt_succ_self _
    · exact Nat.lt_trans (gb _ hpold) (Nat.lt_succ_self _)
  · intro p hp
    exact Nat.lt_trans (so p hp) (Nat.lt_succ_self _)
  · intro p hp
    rcases mem_mapSet hp with rfl | hpold
    · intro pr hpr
      have : pr = g := by simpa using hpr
      subst this
      exact hglt
    · exact pd _ hpold
  · intro p hp q hq
    rcases mem_mapSet hp with rfl | hpold
    · exact absurd hq (List.not_mem_nil q)
    · have hplt : p.1 < w.nextGen := gb _ hpold
      have hch := (Clone_chain_old ⟨gb, ws, so, pd, oc⟩ hg hplt).1
      refine stateOK_transport (oc p hpold q hq) ?_ ?_
      · show ((Clone w g).1.states).lookup q.2 = _
        rw [Clone_states]
      · exact hch

/-- Footprint of a whole sequence of `Generate` calls. -/
theorem GenerateSeq_spec {G : Graph} {g : Nat} :
    ∀ (vs : List (Option Nat)) (w : World), WF w →
      ExtM w (GenerateSeq G g vs w) g ∧ WF (GenerateSeq G g vs w) := by
  intro vs
  induction vs with
  | nil =>
    intro w hwf
    exact ⟨(ExtR.refl w g).toExtM, hwf⟩
  | cons v vs ihv =>
    intro w hwf
    show ExtM w (GenerateSeq G g (v :: vs) w) g ∧ WF (GenerateSeq G g (v :: vs) w)
    rw [GenerateSeq]
    split
    · next w' out hgen =>
      obtain ⟨hext1, hwf1⟩ := Generate_spec hwf hgen
      obtain ⟨hext2, hwf2⟩ := ihv w' hwf1
      exact ⟨ExtM_trans hext1 hext2, hwf2⟩
    · exact ⟨(ExtR.refl w g).toExtM, hwf⟩

end Heap

/-! ## Claim theorems -/

/-- Claim C1: for every leaf emitted by `Permutations.ForEach` as the pair
`(n, perm)`, calling `Permutations.Permutation` at `n` on the same
`Permutations` value returns a list equal to `perm`: the mixed-radix decode
(`choice = n mod k`, `n = n div k`) is the inverse of the ordinal assignment
`childN = n + i * cumuOpts` performed by `ForEach`. -/
theorem forEach_permutation_consistency {S V : Type} (gen : OptionGeneratorFn S V)
    (s : S) (fuel : Nat) (res : List (Nat × List (Option V)))
    (n : Nat) (perm : List (Option V))
    (hrun : ForEach gen s fuel = some res) (hmem : (n, perm) ∈ res) :
    ∃ p, Permutation gen s fuel n = some p ∧ perm = p.map some := by
  have H := ForEachRun_emits gen fuel [(rootFrame s, [])] [] [] res
    (by rintro fp hfp
        have : fp = (rootFrame s, []) := by simpa using hfp
        subst this
        exact ⟨rfl, List.nil_prefix⟩)
    (by simp)
    (by simpa [ForEach] using hrun) (n, perm) hmem
  rcases H with H | ⟨fp, hfp, path, hleaf, hperm, hlt⟩
  · simp at H
  · have hfp' : fp = (rootFrame s, []) := by simpa using hfp
    subst hfp'
    obtain ⟨m, hm, hdec⟩ := hleaf.decode (le_refl 1)
    have hmn : m = n := by
      simp only [rootFrame] at hm
      omega
    refine ⟨path, ?_, ?_⟩
    · rw [Permutation, ← hmn]
      exact hdec fuel hlt
    · simpa [rootFrame] using hperm

theorem forEach_permutation_consistency_witness :
    ∃ p, Permutation simplePermutationGenerate ([10, 20] : List Nat) 10 1 = some p ∧
      [some 20, some 10] = p.map some :=
  forEach_permutation_consistency simplePermutationGenerate [10, 20] 10
    [(1, [some 20, some 10]), (0, [some 10, some 20])] 1 [some 20, some 10]
    (by decide) (by decide)

/-- Claim C2 (counterexample): on `gapGraph` starting from `[0, 1, 2]` the
enumeration terminates with the five ordinals `5, 2, 4, 1, 0`, which do not
form the contiguous range `{0, ..., 4}` (the ordinal `3` is skipped because
the subtree that chooses node `0` first has fewer leaves than its
siblings). -/
theorem forEach_ordinals_not_contiguous :
    (ForEach (Branch.Generate gapGraph) gapStart 40).map (List.map Prod.fst) =
      some [5, 2, 4, 1, 0] ∧
    ¬ ([5, 2, 4, 1, 0] : List Nat).toFinset = Finset.range 5 := by
  constructor
  · decide
  · decide

/-- Claim C2 (amended): for every terminating enumeration the ordinals of the
emitted leaves are pairwise distinct; they need not form a contiguous range
`{0, ..., K-1}` when sibling subtrees have different leaf counts. -/
theorem forEach_ordinals_nodup {S V : Type} (gen : OptionGeneratorFn S V)
    (s : S) (fuel : Nat) (res : List (Nat × List (Option V)))
    (hrun : ForEach gen s fuel = some res) :
    (res.map Prod.fst).Nodup := by
  refine ForEachRun_ordinals_nodup gen fuel [rootFrame s] [] [] res ?_ ?_ ?_ ?_
    (by simpa [ForEach] using hrun)
  · rintro fr hfr
    have : fr = rootFrame s := by simpa using hfr
    subst this
    exact le_refl 1
  · simp
  · simp
  · simp

theorem forEach_ordinals_nodup_witness :
    (([((5 : Nat), [some 2, some 1, some 0]), (2, [some 2, some 0]),
      (4, [some 1, some 2, some 0]), (1, [some 1, some 0, some 2]),
      (0, [some 0, some 2])] : List (Nat × List (Option Nat))).map Prod.fst).Nodup :=
  forEach_ordinals_nodup (Branch.Generate gapGraph) gapStart 40
    [(5, [some 2, some 1, some 0]), (2, [some 2, some 0]),
     (4, [some 1, some 2, some 0]), (1, [some 1, some 0, some 2]),
     (0, [some 0, some 2])] (by decide)

/-- Claim C7 (counterexample): with a duplicated `required` list the length
guard `len(reached) >= len(required)` fires even though every required node
has been reached: `AvailableAll([0,0])` on the duplicate-free visited list
`[0]` answers `NoChange`, not `MakeAvailable`. -/
theorem availableAll_duplicate_required :
    (NewAvailableAllCallback [0, 0]).IncomingEdgesReached 0 [0] = NoChange ∧
    (∀ r ∈ ([0, 0] : List Nat), r ∈ ([0] : List Nat)) ∧
    ([0] : List Nat).Nodup ∧
    ¬ (((NewAvailableAllCallback [0, 0]).IncomingEdgesReached 0 [0] = MakeAvailable) ↔
        ∀ r ∈ ([0, 0] : List Nat), r ∈ ([0] : List Nat)) := by
  refine ⟨by decide, by decide, by decide, ?_⟩
  intro h
  have := h.mpr (by decide)
  exact absurd this (by decide)

/-- Claim C7 (amended): for a duplicate-free `required` list (and any
duplicate-free visited list), the callback built by `NewAvailableAllCallback`
answers `MakeAvailable` iff every required node appears among the visited
incoming nodes, answers `NoChange` otherwise, and never answers `Inhibit`. -/
theorem availableAll_spec (required : List Nat) (node : Nat) (visited : List Nat)
    (hreq : required.Nodup) (_hvis : visited.Nodup) :
    ((NewAvailableAllCallback required).IncomingEdgesReached node visited = MakeAvailable ↔
      ∀ r ∈ required, r ∈ visited) ∧
    ((NewAvailableAllCallback required).IncomingEdgesReached node visited = NoChange ↔
      ¬ ∀ r ∈ required, r ∈ visited) ∧
    (NewAvailableAllCallback required).IncomingEdgesReached node visited ≠ Inhibit := by
  have hni : (NewAvailableAllCallback required).IncomingEdgesReached node visited ≠ Inhibit := by
    unfold NewAvailableAllCallback newAllCallback allCallback.IncomingEdgesReached
    intro hcontra
    split at hcontra
    · split at hcontra
      · exact GraphNodeStateChange.noConfusion hcontra
      · exact GraphNodeStateChange.noConfusion hcontra
    · exact GraphNodeStateChange.noConfusion hcontra
  refine ⟨?_, ?_, hni⟩ <;>
    unfold NewAvailableAllCallback newAllCallback allCallback.IncomingEdgesReached <;>
    by_cases hall : ∀ r ∈ required, r ∈ visited
  · have hlen : required.length ≤ visited.length := by
      have h1 : required.toFinset.card = required.length :=
        List.toFinset_card_of_nodup hreq
      have h2 : required.toFinset ⊆ visited.toFinset := by
        intro a ha
        rw [List.mem_toFinset] at ha ⊢
        exact hall a ha
      calc required.length = required.toFinset.card := h1.symm
        _ ≤ visited.toFinset.card := Finset.card_le_card h2
        _ ≤ visited.length := visited.toFinset_card_le
    rw [if_pos hlen, if_pos hall]
    simp only [true_iff, iff_true]
    try exact hall
  · by_cases hlen : required.length ≤ visited.length
    · rw [if_pos hlen, if_neg hall]
      simp [hall]
    · rw [if_neg hlen]
      simp [hall]
  · have hlen : required.length ≤ visited.length := by
      have h1 : required.toFinset.card = required.length :=
        List.toFinset_card_of_nodup hreq
      have h2 : required.toFinset ⊆ visited.toFinset := by
        intro a ha
        rw [List.mem_toFinset] at ha ⊢
        exact hall a ha
      calc required.length = required.toFinset.card := h1.symm
        _ ≤ visited.toFinset.card := Finset.card_le_card h2
        _ ≤ visited.length := visited.toFinset_card_le
    rw [if_pos hlen, if_pos hall]
    constructor
    · intro hcontra
      exact GraphNodeStateChange.noConfusion hcontra
    · intro hcontra
      exact absurd hall hcontra
  · by_cases hlen : required.length ≤ visited.length
    · rw [if_pos hlen, if_neg hall]
      simp [hall]
    · rw [if_neg hlen]
      simp [hall]

theorem availableAll_spec_witness :
    (((NewAvailableAllCallback [3]).IncomingEdgesReached 0 [3, 4] = MakeAvailable ↔
      ∀ r ∈ ([3] : List Nat), r ∈ ([3, 4] : List Nat)) ∧
    ((NewAvailableAllCallback [3]).IncomingEdgesReached 0 [3, 4] = NoChange ↔
      ¬ ∀ r ∈ ([3] : List Nat), r ∈ ([3, 4] : List Nat)) ∧
    (NewAvailableAllCallback [3]).IncomingEdgesReached 0 [3, 4] ≠ Inhibit) :=
  availableAll_spec [3] 0 [3, 4] (by decide) (by decide)

/-- Claim C8: `AddEdgeTo(a, b)` appends `b` to `a.Out` and `a` to `b.In` only
when absent, so adding the same edge twice leaves the graph, and hence the
entire enumeration, identical to adding it once. -/
theorem addEdgeTo_idempotent (g : Graph) (a b : Nat) :
    (g.AddEdgeTo a b).AddEdgeTo a b = g.AddEdgeTo a b ∧
    ∀ (sd : List Nat) (fuel : Nat),
      ForEach (Branch.Generate ((g.AddEdgeTo a b).AddEdgeTo a b))
        (Branch.NewGraphPermutation sd) fuel =
      ForEach (Branch.Generate (g.AddEdgeTo a b)) (Branch.NewGraphPermutation sd) fuel := by
  have h := AddEdgeTo_of_mem_mem (g.AddEdgeTo a b) a b
    (AddEdgeTo_Out_mem g a b) (AddEdgeTo_In_mem g a b)
  exact ⟨h, fun sd fuel => by rw [h]⟩

/-- Claim C3: every permutation emitted by `ForEach` over a graph-permutation
generator (any graph, cyclic or not, started from distinct starting nodes)
contains each graph node at most once: a chosen node is removed from the
frontier and marked inhibited, and inhibition is sticky, so no later
`Generate` call in the branch offers it again. -/
theorem forEach_at_most_once (g : Graph) (sd : List Nat) (hsd : sd.Nodup)
    (fuel : Nat) (res : List (Nat × List (Option Nat))) (n : Nat)
    (perm : List (Option Nat))
    (hrun : ForEach (Branch.Generate g) (Branch.NewGraphPermutation sd) fuel = some res)
    (hmem : (n, perm) ∈ res) : perm.Nodup := by
  have H := ForEachRun_emits (Branch.Generate g) fuel
    [(rootFrame (Branch.NewGraphPermutation sd), [])] [] [] res
    (by rintro fp hfp
        have : fp = (rootFrame (Branch.NewGraphPermutation sd), []) := by simpa using hfp
        subst this
        exact ⟨rfl, List.nil_prefix⟩)
    (by simp)
    (by simpa [ForEach] using hrun) (n, perm) hmem
  rcases H with H | ⟨fp, hfp, path, hleaf, hperm, _⟩
  · simp at H
  · have hfp' : fp = (rootFrame (Branch.NewGraphPermutation sd), []) := by simpa using hfp
    subst hfp'
    have hnd : path.Nodup :=
      Branch.Leaf_nodup hleaf (Branch.InvGP_init sd hsd)
    have hperm' : perm = path.map some := by simpa [rootFrame] using hperm
    rw [hperm']
    exact hnd.map (Option.some_injective Nat)

theorem forEach_at_most_once_witness :
    ([some 2, some 1, some 0] : List (Option Nat)).Nodup :=
  forEach_at_most_once gapGraph [0, 1, 2] (by decide) 40
    [(5, [some 2, some 1, some 0]), (2, [some 2, some 0]),
     (4, [some 1, some 2, some 0]), (1, [some 1, some 0, some 2]),
     (0, [some 0, some 2])] 5 [some 2, some 1, some 0] (by decide) (by decide)

/-- Claim C4 (counterexample): after one `Generate` call from
`NewGraphPermutation([0])` choosing node `0`, a reachable generator state
records node `0` with `inhibited = true` and `available = true`: `Generate`
marks the chosen node inhibited but never clears its `available` flag. -/
theorem generate_inhibited_keeps_available :
    Branch.Generate newGraph (Branch.NewGraphPermutation [0]) (some 0) =
      some ({ current := [],
              nodeState := [(0, { inhibited := true, available := true,
                                  incomingVisited := [] })] }, []) := by
  decide

/-- Claim C4 (amended): in every generator state reachable through the
branch's own `Generate` calls from `NewGraphPermutation` on distinct
starting nodes (`Clone` is value copy in this branch-level model), a node
whose state says `inhibited` is absent from the frontier; its `available`
flag, however, may remain `true` when the node was inhibited by being
chosen. -/
theorem inhibited_not_in_frontier (g : Graph) (sd : List Nat) (hsd : sd.Nodup)
    (tr : List (Option Nat)) (gp : Branch.graphPermutation)
    (h : Branch.applyTrace g (Branch.NewGraphPermutation sd) tr = some gp)
    (x : Nat) (s : graphNodeState) (hs : gp.nodeState.lookup x = some s)
    (hsi : s.inhibited = true) : x ∉ gp.current := by
  have hinv := Branch.InvGP_applyTrace g tr _ gp (Branch.InvGP_init sd hsd) h
  intro hmem
  have := (hinv.mem_iff x s hs).mpr hmem
  rw [this.2] at hsi
  exact Bool.noConfusion hsi

theorem inhibited_not_in_frontier_witness : (0 : Nat) ∉ ([1] : List Nat) :=
  inhibited_not_in_frontier newGraph [0, 1] (by decide) [some 0]
    { current := [1],
      nodeState := [(0, { inhibited := true, available := true, incomingVisited := [] }),
                    (1, { inhibited := false, available := true, incomingVisited := [] })] }
    (by decide) 0 { inhibited := true, available := true, incomingVisited := [] }
    (by decide) rfl

/-- Claim C10: `Generate(lastChosen)` is safe whenever `lastChosen` is the
nil sentinel or a member of a previously returned frontier: the state lookup
then succeeds, so the write through the looked-up pointer is well-defined
(the embedding returns `none` exactly where the Go code would dereference a
nil `*graphNodeState`). -/
theorem generate_safe_on_frontier (g : Graph) (sd : List Nat)
    (tr : List (Option Nat)) (gp : Branch.graphPermutation) (fr : List Nat)
    (hrun : Branch.runDisc g (Branch.NewGraphPermutation sd) [] tr = some (gp, fr))
    (v : Option Nat) (hv : v = none ∨ ∃ x, v = some x ∧ x ∈ fr) :
    (Branch.Generate g gp v).isSome := by
  have hinit : Branch.WInv (Branch.NewGraphPermutation sd) := by
    intro x hx
    have hx' : x ∈ sd := by simpa [Branch.NewGraphPermutation] using hx
    rw [Branch.NewGraphPermutation_nodeState, if_pos hx']
    rfl
  obtain ⟨hw, hf⟩ := Branch.runDisc_inv g tr _ [] gp fr hinit (by simp) hrun
  rcases hv with rfl | ⟨x, rfl, hx⟩
  · simp [Branch.Generate]
  · exact Branch.Generate_isSome_of_state (hf x hx)

theorem generate_safe_on_frontier_witness :
    (Branch.Generate newGraph
      { current := [1],
        nodeState := [(0, { inhibited := true, available := true, incomingVisited := [] }),
                      (1, { inhibited := false, available := true, incomingVisited := [] })] }
      (some 1)).isSome :=
  generate_safe_on_frontier newGraph [0, 1] [none, some 0]
    { current := [1],
      nodeState := [(0, { inhibited := true, available := true, incomingVisited := [] }),
                    (1, { inhibited := false, available := true, incomingVisited := [] })] }
    [0, 1, 1] (by decide) (some 1) (Or.inr ⟨1, rfl, by decide⟩)

/-- Claim C9: determinism of the enumeration for identically-constructed
graphs.  Two runs over graphs built by identical construction sequences
differ only in the node identifiers (`pointers`) handed out; these are
related by a bijection `π`.  The whole enumeration commutes with any such
renaming: ordinals coincide and the emitted permutations correspond
position-for-position through `π` (the engine compares identifiers only for
equality, and in this model no map iteration order can influence the
result). -/
theorem forEach_renaming_invariant (π : Nat ≃ Nat) (g : Graph) (sd : List Nat)
    (fuel : Nat) :
    ForEach (Branch.Generate (mapGraph π g)) (Branch.NewGraphPermutation (sd.map π)) fuel =
      (ForEach (Branch.Generate g) (Branch.NewGraphPermutation sd) fuel).map
        (List.map (mapPair π)) := by
  unfold ForEach
  rw [Branch.NewGraphPermutation_equivariant]
  have H := ForEachRun_sim (Branch.Generate g) (Branch.Generate (mapGraph π g))
    (Branch.mapGP π) π
    (fun s v => Branch.Generate_equivariant π g s v) fuel
    [rootFrame (Branch.NewGraphPermutation sd)] [] []
  simpa [rootFrame, mapFrame] using H

/-- Claim C5 (counterexample): `graphPermutation.Clone` does NOT guarantee
the absence of shared mutable state in both directions.  On the graph
`0 → 1` started at `[0]`, the clone's `Generate(0)` returns frontier `[1]`
when run first, but returns `[]` after the receiver has run its own
`Generate(0)`: the receiver mutates its own state objects in place and the
clone still reads them through the parent chain. -/
theorem clone_shares_mutable_state :
    (Heap.Generate chainG heapWC.1 1 (some 0)).map (fun r => r.2) = some [1] ∧
    ((Heap.Generate chainG heapWC.1 0 (some 0)).bind
      (fun r => Heap.Generate chainG r.1 1 (some 0))).map (fun r => r.2) = some [] ∧
    (some [1] : Option (List Nat)) ≠ some [] := by
  refine ⟨by decide, by decide, by decide⟩

/-- Claim C5 (amended): isolation holds in the clone-to-receiver direction
only.  After `Clone` and any sequence of `Generate` calls on the clone, the
receiver's frontier, every node state visible on the receiver's chain, and
every state object that existed before the `Clone` are unchanged. -/
theorem clone_one_way_isolation {G : Graph} {w : Heap.World} {g : Nat}
    {gr : Heap.GenRec} {w1 : Heap.World} {c : Nat} (vs : List (Option Nat))
    (hwf : Heap.WF w) (hg : Heap.lookupGen w g = some gr)
    (hc : Heap.Clone w g = (w1, c)) :
    Heap.currentOf (Heap.GenerateSeq G c vs w1) g = Heap.currentOf w g ∧
    (∀ nd, Heap.chainVal (Heap.GenerateSeq G c vs w1) g nd = Heap.chainVal w g nd) ∧
    (∀ sid st, Heap.lookupState w sid = some st →
      Heap.lookupState (Heap.GenerateSeq G c vs w1) sid = some st) := by
  have hw1 : (Heap.Clone w g).1 = w1 := congrArg Prod.fst hc
  have hcc : (Heap.Clone w g).2 = c := congrArg Prod.snd hc
  have hcval : c = w.nextGen := by
    rw [← hcc, Heap.Clone_snd hg]
  have hglt : g < w.nextGen := hwf.1 _ (Heap.lookup_mem hg)
  have hwf1 : Heap.WF w1 := hw1 ▸ Heap.Clone_WF hwf hg
  obtain ⟨hext, _⟩ := @Heap.GenerateSeq_spec G c vs w1 hwf1
  have hch1 : Heap.chainList w1 g = Heap.chainList w g := by
    rw [← hw1]
    exact (Heap.Clone_chain_old hwf hg hglt).1
  have hcv1 : ∀ nd, Heap.chainVal w1 g nd = Heap.chainVal w g nd := by
    intro nd
    rw [← hw1]
    exact Heap.Clone_chainVal_old hwf hg hglt nd
  have hgc : g ≠ c := by
    rw [hcval]
    exact Nat.ne_of_lt hglt
  have hcnot : c ∉ Heap.chainList w1 g := by
    rw [hch1, hcval]
    intro hmem
    have := Heap.chainList_le w g _ hmem
    omega
  refine ⟨?_, ?_, ?_⟩
  · rw [hext.cur g hgc, ← hw1]
    unfold Heap.currentOf
    rw [Heap.Clone_gens_ne hg (Nat.ne_of_lt hglt)]
  · intro nd
    rw [hext.cval g hcnot nd, hcv1 nd]
  · intro sid st hst
    have hst1 : Heap.lookupState w1 sid = some st := by
      rw [← hw1]
      show ((Heap.Clone w g).1.states).lookup sid = some st
      rw [Heap.Clone_states]
      exact hst
    refine hext.states sid st hst1 ?_
    have hso : st.permutation < w.nextGen := hwf.2.2.1 _ (Heap.lookup_mem hst)
    rw [hcval]
    exact Nat.ne_of_lt hso

theorem clone_one_way_isolation_witness :
    Heap.WF heapW0 ∧
    (Heap.currentOf (Heap.GenerateSeq chainG 1 [some 0] heapWC.1) 0
        = Heap.currentOf heapW0 0 ∧
      (∀ nd, Heap.chainVal (Heap.GenerateSeq chainG 1 [some 0] heapWC.1) 0 nd
        = Heap.chainVal heapW0 0 nd) ∧
      (∀ sid st, Heap.lookupState heapW0 sid = some st →
        Heap.lookupState (Heap.GenerateSeq chainG 1 [some 0] heapWC.1) sid = some st)) :=
  ⟨by decide,
    @clone_one_way_isolation chainG heapW0 0
      { parent := none, current := [0], nodeState := [(0, 0)] } heapWC.1 1
      [some 0] (by decide) (by decide) (by decide)⟩

/-- Claim C6: after `Clone`, any sequence of `Generate` calls on the child
branch never mutates a node-state object owned by an ancestor generator of
the parent chain (a found state is first copied into the child's local map
by `graphNodeState.Clone`), so every lookup performed on an ancestor
observes exactly the frontier and node states it held before the child's
calls. -/
theorem clone_never_mutates_ancestors {G : Graph} {w : Heap.World} {g : Nat}
    {gr : Heap.GenRec} {w1 : Heap.World} {c : Nat} (vs : List (Option Nat))
    (hwf : Heap.WF w) (hg : Heap.lookupGen w g = some gr)
    (hc : Heap.Clone w g = (w1, c)) :
    (∀ sid st, Heap.lookupState w1 sid = some st → st.permutation ≠ c →
      Heap.lookupState (Heap.GenerateSeq G c vs w1) sid = some st) ∧
    ∀ a ∈ Heap.chainList w1 c, a ≠ c →
      (∀ nd, Heap.chainVal (Heap.GenerateSeq G c vs w1) a nd
        = Heap.chainVal w1 a nd) ∧
      Heap.currentOf (Heap.GenerateSeq G c vs w1) a = Heap.currentOf w1 a := by
  have hw1 : (Heap.Clone w g).1 = w1 := congrArg Prod.fst hc
  have hwf1 : Heap.WF w1 := hw1 ▸ Heap.Clone_WF hwf hg
  obtain ⟨hext, _⟩ := @Heap.GenerateSeq_spec G c vs w1 hwf1
  refine ⟨fun sid st hst hne => hext.states sid st hst hne, ?_⟩
  intro a ha hane
  have halt : a < c := by
    rcases Heap.chainList_tail_lt w1 c a ha with h | h
    · exact absurd h hane
    · exact h
  have hcnot : c ∉ Heap.chainList w1 a := Heap.not_mem_chainList_of_lt w1 halt
  exact ⟨fun nd => hext.cval a hcnot nd, hext.cur a (Nat.ne_of_lt halt)⟩

theorem clone_never_mutates_ancestors_witness :
    Heap.WF heapW0 ∧
    ((∀ sid st, Heap.lookupState heapWC.1 sid = some st → st.permutation ≠ 1 →
      Heap.lookupState (Heap.GenerateSeq chainG 1 [some 0] heapWC.1) sid = some st) ∧
    ∀ a ∈ Heap.chainList heapWC.1 1, a ≠ 1 →
      (∀ nd, Heap.chainVal (Heap.GenerateSeq chainG 1 [some 0] heapWC.1) a nd
        = Heap.chainVal heapWC.1 a nd) ∧
      Heap.currentOf (Heap.GenerateSeq chainG 1 [some 0] heapWC.1) a
        = Heap.currentOf heapWC.1 a) :=
  ⟨by decide,
    @clone_never_mutates_ancestors chainG heapW0 0
      { parent := none, current := [0], nodeState := [(0, 0)] } heapWC.1 1
      [some 0] (by decide) (by decide) (by decide)⟩

end Gsim
